import Mathlib


/-!
Verification of the OpenAI streaming model-provider adapter.

This development shallowly embeds the adapter's data model and operations:
the JSON values carried by tool calls (with `JSON.stringify` / `JSON.parse`
modelled as `stringifyJson` / `parseJson`; JSON numbers are modelled as
integers, since fractional IEEE-754 formatting is outside the scope of this
embedding, and lone UTF-16 surrogates are not representable in Lean strings),
the stream-reconstruction state machine of `streamChat` (chunk inspection and
`tool_calls.function.arguments.delta` handling), the request formatter
`formatInputMessage`, the response mapper `mapOaiMessageToMessage` (whose
thrown `JSON.parse` exception is modelled as `Except.error`; the wall-clock
`timestamp` field is omitted), the usage mapper `mapOaiUsage`, and the image
block mapper `mapImageBlockToOpenAI`.
-/


set_option maxHeartbeats 1000000


/-- JSON values, as produced by the JavaScript runtime for tool-call inputs.
Numbers are modelled as integers (see the file comment). -/
inductive Json where
  | null
  | bool (b : Bool)
  | num (n : Int)
  | str (s : String)
  | arr (elems : List Json)
  | obj (fields : List (String × Json))
deriving Repr

/-- Decimal digit character, as produced by JavaScript number-to-string
conversion for a digit value below ten. -/
def digitChar : Nat → Char
  | 0 => '0'
  | 1 => '1'
  | 2 => '2'
  | 3 => '3'
  | 4 => '4'
  | 5 => '5'
  | 6 => '6'
  | 7 => '7'
  | 8 => '8'
  | 9 => '9'
  | _ => '*'

/-- Fuel-driven digit expansion of a natural number, most significant first.
`natDigitsAux fuel n` is the decimal digit list of `n` whenever `n < fuel`
(and `[]` for `n = 0`). -/
def natDigitsAux : Nat → Nat → List Char
  | 0, _ => []
  | fuel + 1, n => if n = 0 then [] else natDigitsAux fuel (n / 10) ++ [digitChar (n % 10)]

/-- Decimal character list of a natural number, modelling JavaScript
number-to-string conversion for non-negative integers. -/
def natToChars (n : Nat) : List Char :=
  if n = 0 then ['0'] else natDigitsAux (n + 1) n

/-- Decimal string of a natural number (JavaScript template-literal
interpolation of a non-negative integer). -/
def natToString (n : Nat) : String :=
  ⟨natToChars n⟩

/-- Decimal character list of an integer (JavaScript number-to-string). -/
def intToChars : Int → List Char
  | Int.ofNat m => natToChars m
  | Int.negSucc m => '-' :: natToChars (m + 1)

/-- Numeric value of a decimal digit character. -/
def charDigitVal (c : Char) : Nat := c.toNat - 48

/-- Value of a list of decimal digit characters, most significant first. -/
def digitsToNat (ds : List Char) : Nat :=
  ds.foldl (fun a c => a * 10 + charDigitVal c) 0

/-- Greedy decimal-number reader used by `parseJson`: takes the leading run of
digit characters, rejecting an empty run and a leading zero (per the JSON
number grammar). -/
def readNat (cs : List Char) : Option (Nat × List Char) :=
  match cs.takeWhile Char.isDigit with
  | [] => none
  | d :: ds =>
    if d = '0' ∧ ds ≠ [] then none
    else some (digitsToNat (d :: ds), cs.dropWhile Char.isDigit)

/-- `c :: _` starts with a non-digit (or the list is empty): the condition
under which the greedy number reader stops exactly at a boundary. -/
def headNotDigit : List Char → Bool
  | [] => true
  | c :: _ => !c.isDigit

/-- Lowercase hexadecimal digit character, as emitted by `JSON.stringify`
in `\u00XX` escapes. -/
def hexDigitChar : Nat → Char
  | 0 => '0'
  | 1 => '1'
  | 2 => '2'
  | 3 => '3'
  | 4 => '4'
  | 5 => '5'
  | 6 => '6'
  | 7 => '7'
  | 8 => '8'
  | 9 => '9'
  | 10 => 'a'
  | 11 => 'b'
  | 12 => 'c'
  | 13 => 'd'
  | 14 => 'e'
  | 15 => 'f'
  | _ => '*'

/-- Value of a hexadecimal digit character (either case), used when decoding
`\uXXXX` escapes. -/
def hexVal (c : Char) : Option Nat :=
  if '0' ≤ c ∧ c ≤ '9' then some (c.toNat - 48)
  else if 'a' ≤ c ∧ c ≤ 'f' then some (c.toNat - 97 + 10)
  else if 'A' ≤ c ∧ c ≤ 'F' then some (c.toNat - 65 + 10)
  else none

/-- The escape sequence `JSON.stringify` produces for one character of a
string: the two-character named escapes for quote, backslash, backspace, form
feed, newline, carriage return and tab, a `\u00XX` escape for any other
control character, and the character itself otherwise. -/
def encodeChar (c : Char) : List Char :=
  if c = '"' then ['\\', '"']
  else if c = '\\' then ['\\', '\\']
  else if c = Char.ofNat 8 then ['\\', 'b']
  else if c = Char.ofNat 12 then ['\\', 'f']
  else if c = '\n' then ['\\', 'n']
  else if c = Char.ofNat 13 then ['\\', 'r']
  else if c = '\t' then ['\\', 't']
  else if c.toNat < 32 then
    ['\\', 'u', '0', '0', hexDigitChar (c.toNat / 16), hexDigitChar (c.toNat % 16)]
  else [c]

/-- Body of a JSON string literal: every character escaped per `encodeChar`. -/
def encodeBody (cs : List Char) : List Char :=
  (cs.map encodeChar).flatten

/-- Decoded character for a single-letter escape sequence (`\"`, `\\`, `\/`,
`\b`, `\f`, `\n`, `\r`, `\t`). -/
def escChar (e : Char) : Option Char :=
  if e = '"' then some '"'
  else if e = '\\' then some '\\'
  else if e = '/' then some '/'
  else if e = 'b' then some (Char.ofNat 8)
  else if e = 'f' then some (Char.ofNat 12)
  else if e = 'n' then some '\n'
  else if e = 'r' then some (Char.ofNat 13)
  else if e = 't' then some '\t'
  else none

/-- Reads the body of a JSON string literal after its opening quote, up to and
including the closing quote: returns the decoded characters and the remaining
input. Raw control characters are rejected, escape sequences are decoded, and
a `\uXXXX` escape must denote a Unicode scalar value (lone surrogates are not
representable in Lean strings). -/
def parseStringBody : List Char → Option (List Char × List Char)
  | [] => none
  | '"' :: cs => some ([], cs)
  | '\\' :: 'u' :: h1 :: h2 :: h3 :: h4 :: cs3 =>
    (match hexVal h1, hexVal h2, hexVal h3, hexVal h4 with
     | some a, some b, some c3, some d =>
       let n := ((a * 16 + b) * 16 + c3) * 16 + d
       if n < 55296 ∨ (57344 ≤ n ∧ n < 1114112) then
         match parseStringBody cs3 with
         | some (s, r) => some (Char.ofNat n :: s, r)
         | none => none
       else none
     | _, _, _, _ => none)
  | '\\' :: e :: cs2 =>
    (match escChar e with
     | some d =>
       match parseStringBody cs2 with
       | some (s, r) => some (d :: s, r)
       | none => none
     | none => none)
  | c :: cs =>
    if c = '\\' then none
    else if c.toNat < 32 then none
    else
      match parseStringBody cs with
      | some (s, r) => some (c :: s, r)
      | none => none

mutual

/-- `JSON.stringify` (without spacing), as the character list of its output:
literals, decimal numbers, escaped string literals, comma-separated arrays in
square brackets, and comma-separated `"key":value` fields in curly braces. -/
def stringifyData : Json → List Char
  | Json.null => ['n', 'u', 'l', 'l']
  | Json.bool true => ['t', 'r', 'u', 'e']
  | Json.bool false => ['f', 'a', 'l', 's', 'e']
  | Json.num n => intToChars n
  | Json.str s => '"' :: (encodeBody s.data ++ ['"'])
  | Json.arr es => '[' :: (stringifyElems es ++ [']'])
  | Json.obj fs => '{' :: (stringifyFields fs ++ ['}'])

/-- Comma-separated stringification of array elements. -/
def stringifyElems : List Json → List Char
  | [] => []
  | [j] => stringifyData j
  | j :: js => stringifyData j ++ ',' :: stringifyElems js

/-- Comma-separated stringification of object fields. -/
def stringifyFields : List (String × Json) → List Char
  | [] => []
  | [(k, v)] => '"' :: (encodeBody k.data ++ '"' :: ':' :: stringifyData v)
  | (k, v) :: fs =>
    '"' :: (encodeBody k.data ++ '"' :: ':' :: (stringifyData v ++ ',' :: stringifyFields fs))

end

/-- `JSON.stringify` of a JSON value, as a string. -/
def stringifyJson (j : Json) : String :=
  ⟨stringifyData j⟩

/-- JSON insignificant whitespace. -/
def isWsChar (c : Char) : Bool :=
  c == ' ' || c == '\t' || c == '\n' || c == '\r'

/-- Skips leading JSON whitespace. -/
def skipWs : List Char → List Char
  | [] => []
  | c :: cs => if isWsChar c then skipWs cs else c :: cs

mutual

/-- Fuel-driven JSON value parser (`JSON.parse` modulo the model restrictions
stated in the file comment): skips whitespace, then dispatches on the first
character to a literal, a string, an array, an object, or a number. -/
def parseValue : Nat → List Char → Option (Json × List Char)
  | 0, _ => none
  | fuel + 1, cs =>
    match skipWs cs with
    | [] => none
    | c :: cs1 =>
      if c = 'n' then
        match cs1 with
        | 'u' :: 'l' :: 'l' :: rest => some (Json.null, rest)
        | _ => none
      else if c = 't' then
        match cs1 with
        | 'r' :: 'u' :: 'e' :: rest => some (Json.bool true, rest)
        | _ => none
      else if c = 'f' then
        match cs1 with
        | 'a' :: 'l' :: 's' :: 'e' :: rest => some (Json.bool false, rest)
        | _ => none
      else if c = '"' then
        match parseStringBody cs1 with
        | some (s, rest) => some (Json.str ⟨s⟩, rest)
        | none => none
      else if c = '[' then
        match skipWs cs1 with
        | ']' :: rest => some (Json.arr [], rest)
        | cs2 =>
          match parseElems fuel cs2 with
          | some (js, r) => some (Json.arr js, r)
          | none => none
      else if c = '{' then
        match skipWs cs1 with
        | '}' :: rest => some (Json.obj [], rest)
        | cs2 =>
          match parseFields fuel cs2 with
          | some (fs, r) => some (Json.obj fs, r)
          | none => none
      else if c = '-' then
        match readNat cs1 with
        | some (n, rest) => some (Json.num (-(n : Int)), rest)
        | none => none
      else if c.isDigit then
        match readNat (c :: cs1) with
        | some (n, rest) => some (Json.num (n : Int), rest)
        | none => none
      else none

/-- Parses `value (',' value)* ']'`, the tail of a non-empty array. -/
def parseElems : Nat → List Char → Option (List Json × List Char)
  | 0, _ => none
  | fuel + 1, cs =>
    match parseValue fuel cs with
    | some (j, rest) =>
      (match skipWs rest with
       | ',' :: rest2 =>
         match parseElems fuel rest2 with
         | some (js, r) => some (j :: js, r)
         | none => none
       | ']' :: rest2 => some ([j], rest2)
       | _ => none)
    | none => none

/-- Parses `string ':' value (',' string ':' value)* RBRACE`, the tail of a
non-empty object. -/
def parseFields : Nat → List Char → Option (List (String × Json) × List Char)
  | 0, _ => none
  | fuel + 1, cs =>
    match skipWs cs with
    | '"' :: cs1 =>
      (match parseStringBody cs1 with
       | some (kchars, cs2) =>
         (match skipWs cs2 with
          | ':' :: cs3 =>
            (match parseValue fuel cs3 with
             | some (v, cs4) =>
               (match skipWs cs4 with
                | ',' :: cs5 =>
                  (match parseFields fuel cs5 with
                   | some (fs, r) => some ((⟨kchars⟩, v) :: fs, r)
                   | none => none)
                | '}' :: cs5 => some ([(⟨kchars⟩, v)], cs5)
                | _ => none)
             | none => none)
          | _ => none)
       | none => none)
    | _ => none

end

/-- `JSON.parse`: parses a complete JSON document, allowing surrounding
whitespace and rejecting trailing input. The fuel `s.length + 1` dominates the
nesting depth of any parseable input, since every recursion step consumes at
least one input character. -/
def parseJson (s : String) : Option Json :=
  match parseValue (s.length + 1) s.data with
  | some (j, rest) =>
    (match skipWs rest with
     | [] => some j
     | _ => none)
  | none => none

mutual

/-- Structural size of a JSON value, bounding the parser fuel it needs. -/
def sizeJson : Json → Nat
  | Json.null => 1
  | Json.bool _ => 1
  | Json.num _ => 1
  | Json.str _ => 1
  | Json.arr es => 1 + sizeElems es
  | Json.obj fs => 1 + sizeFields fs

/-- Structural size of an array-element list. -/
def sizeElems : List Json → Nat
  | [] => 0
  | e :: es => 1 + sizeJson e + sizeElems es

/-- Structural size of an object-field list. -/
def sizeFields : List (String × Json) → Nat
  | [] => 0
  | (_, v) :: fs => 1 + sizeJson v + sizeFields fs

end

/-- The first character a stringified JSON value can start with. -/
def valueHead (c : Char) : Bool :=
  c == 'n' || c == 't' || c == 'f' || c == '"' || c == '[' || c == '{' || c == '-' || c.isDigit

/-- One entry of `chunk.choices[0].delta.tool_calls` as inspected by the raw
chunk handler: an optional index, an optional call id, and an optional
function name (`tc.function?.name`). -/
structure RawToolCallDelta where
  index : Option Nat
  id : Option String
  name : Option String

/-- The raw provider-stream callbacks the reconstructor reacts to: a content
delta, a raw chunk carrying tool-call fragments, and a
`tool_calls.function.arguments.delta` event (name, optional index, argument
text delta). -/
inductive RawSignal where
  | contentDelta (delta : String)
  | chunk (toolCalls : List RawToolCallDelta)
  | argDelta (name : String) (index : Option Nat) (argumentsDelta : String)

/-- `ModelEvent`: one semantic increment of provider output, as emitted to the
subscriber (the terminal `message` event is modelled separately by
`mapOaiMessageToMessage`). -/
inductive ModelEvent where
  | text (content : String)
  | tool_use (toolUseId : String) (toolName : String)
  | tool_use_input (toolUseId : String) (toolName : String) (partialInput : String)
deriving DecidableEq

/-- The per-stream identity-resolution state of `streamChat`'s observable:
the set of tool-call keys that have already emitted a start event, the
index-to-id map, the name-to-id map, and the auto-incrementing fallback
index. JavaScript `Map`s are modelled as association lists where the most
recent binding is consed in front (`Map.get` returns the first match). -/
structure StreamState where
  emittedToolCalls : List String
  toolCallIds : List (Nat × String)
  toolCallIdsByName : List (String × String)
  nextAutoIndex : Nat
deriving DecidableEq

/-- The fresh state created for each stream subscription. -/
def initState : StreamState :=
  { emittedToolCalls := [], toolCallIds := [], toolCallIdsByName := [], nextAutoIndex := 0 }

/-- The chunk handler's loop body over `toolCalls`, carried out from array
position `i`: resolve each fragment's position (its own index, else its array
position) and, when the fragment carries an id, record it under the position
and, when a name is also present, under the name. -/
def chunkGo : StreamState → Nat → List RawToolCallDelta → StreamState
  | st, _, [] => st
  | st, i, tc :: rest =>
    let index := tc.index.getD i
    let st2 :=
      match tc.id with
      | some id =>
        { st with
          toolCallIds := (index, id) :: st.toolCallIds
          toolCallIdsByName :=
            match tc.name with
            | some n => (n, id) :: st.toolCallIdsByName
            | none => st.toolCallIdsByName }
      | none => st
    chunkGo st2 (i + 1) rest

/-- The `chunk` event handler: opportunistic identity capture. -/
def chunkStep (st : StreamState) (toolCalls : List RawToolCallDelta) : StreamState :=
  chunkGo st 0 toolCalls

/-- The adapter-synthesized fallback id for a position:
`` `fallback_TOOLINDEX` ``. -/
def fallbackId (toolIndex : Nat) : String :=
  "fallback_" ++ natToString toolIndex

/-- Position resolution in the arguments-delta handler:
`event.index ?? nextAutoIndex`. -/
def resolveIndex (st : StreamState) (index : Option Nat) : Nat :=
  index.getD st.nextAutoIndex

/-- Identity resolution in the arguments-delta handler:
`toolCallIds.get(toolIndex) ?? toolCallIdsByName.get(toolName) ?? fallback`. -/
def resolveId (st : StreamState) (toolIndex : Nat) (toolName : String) : String :=
  match List.lookup toolIndex st.toolCallIds with
  | some id => id
  | none =>
    match List.lookup toolName st.toolCallIdsByName with
    | some id => id
    | none => fallbackId toolIndex

/-- The `tool_calls.function.arguments.delta` handler: resolve position and
id; on the first fragment for a position, mark it emitted, advance the
auto-index past it, and emit a `tool_use` start event; always emit a
`tool_use_input` event with the fragment's partial argument text. -/
def argDeltaStep (st : StreamState) (name : String) (index : Option Nat) (delta : String) :
    StreamState × List ModelEvent :=
  let toolIndex := resolveIndex st index
  let toolKey := natToString toolIndex
  let toolUseId := resolveId st toolIndex name
  if st.emittedToolCalls.contains toolKey then
    (st, [ModelEvent.tool_use_input toolUseId name delta])
  else
    ({ st with
        emittedToolCalls := toolKey :: st.emittedToolCalls
        nextAutoIndex := toolIndex + 1 },
     [ModelEvent.tool_use toolUseId name,
      ModelEvent.tool_use_input toolUseId name delta])

/-- One raw signal processed against the current state, producing the next
state and the emitted events, each annotated with the resolved position of
the arguments-delta fragment that produced it (`none` for text events). -/
def stepOut (st : StreamState) : RawSignal → StreamState × List (Option Nat × ModelEvent)
  | RawSignal.contentDelta d => (st, [(none, ModelEvent.text d)])
  | RawSignal.chunk tcs => (chunkStep st tcs, [])
  | RawSignal.argDelta name index delta =>
    let out := argDeltaStep st name index delta
    (out.1, out.2.map (fun e => (some (resolveIndex st index), e)))

/-- The annotated event trace of a whole raw stream from a given state. -/
def runAnnotated (st : StreamState) : List RawSignal → List (Option Nat × ModelEvent)
  | [] => []
  | sig :: rest => (stepOut st sig).2 ++ runAnnotated (stepOut st sig).1 rest

/-- The events emitted for fragments that resolve to position `p`, starting
from state `st`. -/
def eventsAtFrom (st : StreamState) (sigs : List RawSignal) (p : Nat) : List ModelEvent :=
  ((runAnnotated st sigs).filter (fun e => e.1 == some p)).map (fun e => e.2)

/-- The events emitted for fragments that resolve to position `p` over a
whole stream. -/
def eventsAt (sigs : List RawSignal) (p : Nat) : List ModelEvent :=
  eventsAtFrom initState sigs p

def ModelEvent.isStart : ModelEvent → Bool
  | ModelEvent.tool_use _ _ => true
  | _ => false

def ModelEvent.isInput : ModelEvent → Bool
  | ModelEvent.tool_use_input _ _ _ => true
  | _ => false

/-- The id carried by a tool event (empty for text events). -/
def ModelEvent.evId : ModelEvent → String
  | ModelEvent.tool_use i _ => i
  | ModelEvent.tool_use_input i _ _ => i
  | _ => ""

/-- The tool name carried by a tool event (empty for text events). -/
def ModelEvent.evName : ModelEvent → String
  | ModelEvent.tool_use _ n => n
  | ModelEvent.tool_use_input _ n _ => n
  | _ => ""

/-- The partial argument text carried by a `tool_use_input` event. -/
def ModelEvent.evText : ModelEvent → String
  | ModelEvent.tool_use_input _ _ s => s
  | _ => ""

/-- The `tool_use_input` events emitted for fragments resolving to `p`. -/
def inputEventsAt (sigs : List RawSignal) (p : Nat) : List ModelEvent :=
  (eventsAt sigs p).filter ModelEvent.isInput

/-- For each arguments-delta fragment of the stream, in arrival order, its
resolved position together with its reported name and argument delta. -/
def fragSeq (st : StreamState) : List RawSignal → List (Nat × String × String)
  | [] => []
  | RawSignal.argDelta name index delta :: rest =>
    (resolveIndex st index, name, delta)
      :: fragSeq (stepOut st (RawSignal.argDelta name index delta)).1 rest
  | sig :: rest => fragSeq (stepOut st sig).1 rest

/-- The (name, argument delta) pairs of the fragments resolving to `p`. -/
def fragmentsAtFrom (st : StreamState) (sigs : List RawSignal) (p : Nat) :
    List (String × String) :=
  ((fragSeq st sigs).filter (fun f => f.1 == p)).map (fun f => f.2)

def fragmentsAt (sigs : List RawSignal) (p : Nat) : List (String × String) :=
  fragmentsAtFrom initState sigs p

/-- The complete JSON-encoded argument text of the call at position `p`: the
concatenation, in arrival order, of its fragments' raw argument deltas. -/
def completeArguments (sigs : List RawSignal) (p : Nat) : String :=
  String.join ((fragmentsAt sigs p).map (fun f => f.2))

/-- For each arguments-delta fragment resolving to `p`, the id recorded for
position `p` and the id recorded for name `n` at the moment the fragment is
handled. -/
def lookupsAtFrom (st : StreamState) (p : Nat) (n : String) :
    List RawSignal → List (Option String × Option String)
  | [] => []
  | RawSignal.argDelta name index delta :: rest =>
    (if resolveIndex st index == p then
      [(List.lookup p st.toolCallIds, List.lookup n st.toolCallIdsByName)]
     else [])
      ++ lookupsAtFrom (stepOut st (RawSignal.argDelta name index delta)).1 p n rest
  | sig :: rest => lookupsAtFrom (stepOut st sig).1 p n rest

def lookupsAt (sigs : List RawSignal) (p : Nat) (n : String) :
    List (Option String × Option String) :=
  lookupsAtFrom initState p n sigs

/-- The id the fallback chain produces when the recorded ids for the position
and the name are `I` and `N`: `I ?? N ?? fallback`. -/
def resolveWith (I N : Option String) (p : Nat) : String :=
  I.getD (N.getD (fallbackId p))

/-- A raw signal whose fragments omit both index and id (total metadata
loss, as for providers that never report tool-call identity). -/
def RawSignal.omitsIdentity : RawSignal → Bool
  | RawSignal.contentDelta _ => true
  | RawSignal.chunk tcs => tcs.all (fun tc => tc.id.isNone)
  | RawSignal.argDelta _ index _ => index.isNone

/-- The (name, argument delta) pairs of the stream's arguments-delta
fragments, in arrival order. -/
def argDeltasOf : List RawSignal → List (String × String)
  | [] => []
  | RawSignal.argDelta name _ delta :: rest => (name, delta) :: argDeltasOf rest
  | _ :: rest => argDeltasOf rest

/-- The source of an image block: inline base64 data or a URL, each with a
declared media type. -/
inductive ImageSource where
  | base64 (mediaType : String) (data : String)
  | url (mediaType : String) (url : String)
deriving DecidableEq

def ImageSource.mediaType : ImageSource → String
  | ImageSource.base64 mt _ => mt
  | ImageSource.url mt _ => mt

/-- A sub-block of a `tool_result` block: text or an image. -/
inductive ToolResultBlock where
  | text (t : String)
  | image (source : ImageSource)

/-- A content block of an internal `Message`. -/
inductive ContentBlock where
  | text (t : String)
  | image (source : ImageSource)
  | tool_use (toolUseId : String) (name : String) (input : Json)
  | tool_result (toolUseId : String) (content : List ToolResultBlock)
  | file_attachment (fileId : String) (mimeType : String)

/-- A message role (`"user" | "assistant"`). -/
inductive Role where
  | user
  | assistant
deriving DecidableEq

/-- An internal conversation message. -/
structure Message where
  role : Role
  content : List ContentBlock

/-- An entry of the externally supplied file-attachment cache. -/
structure CacheEntry where
  cachePath : String
  signedUrl : String
deriving DecidableEq

/-- `FileAttachmentCacheMap`, keyed by file id; an id not in the cache maps
to `none` (this also covers the `undefined` map, which is `fun _ => none`). -/
abbrev FileAttachmentCacheMap := String → Option CacheEntry

/-- A content part of an outgoing OpenAI chat message: text, or an image
reference with a detail hint. -/
inductive OaiContentPart where
  | text (text : String)
  | image_url (url : String) (detail : String)
deriving DecidableEq

/-- An outgoing tool-call declaration on an assistant message (its wire
`type` is always `"function"`). -/
structure OaiToolCall where
  id : String
  name : String
  arguments : String
deriving DecidableEq

/-- An outgoing OpenAI chat message: a user message with content parts, a
tool-role message answering one tool call, or an assistant message with text
parts and an optional tool-call list. -/
inductive OaiMessage where
  | user (content : List OaiContentPart)
  | tool (content : String) (tool_call_id : String)
  | assistant (content : List OaiContentPart) (tool_calls : Option (List OaiToolCall))
deriving DecidableEq

/-- `SUPPORTED_IMAGE_TYPES`. -/
def SUPPORTED_IMAGE_TYPES : List String :=
  ["image/jpeg", "image/png", "image/gif", "image/webp"]

/-- `isSupportedImageType`. -/
def isSupportedImageType (type : String) : Bool :=
  SUPPORTED_IMAGE_TYPES.contains type

/-- `mapImageBlockToOpenAI`: a supported media type maps to an image
reference (base64 data URI or pass-through URL) with a fixed high-detail
hint; an unsupported type degrades to descriptive text. -/
def mapImageBlockToOpenAI (source : ImageSource) : OaiContentPart :=
  if isSupportedImageType source.mediaType then
    match source with
    | ImageSource.base64 mt data =>
      OaiContentPart.image_url ("data:" ++ mt ++ ";base64," ++ data) "high"
    | ImageSource.url _ u => OaiContentPart.image_url u "high"
  else
    OaiContentPart.text ("[Unsupported image type: " ++ source.mediaType ++ "]")

/-- The `tool_result` sub-block scan of `formatInputMessage`: threads the
per-message tool-result image counter, collecting the text parts (with a
placeholder for each supported image) and the extracted image parts. The
counter is incremented for every image sub-block, supported or not. -/
def scanToolResultContent : Nat → List ToolResultBlock → Nat × List String × List OaiContentPart
  | tri, [] => (tri, [], [])
  | tri, ToolResultBlock.text t :: rest =>
    let out := scanToolResultContent tri rest
    (out.1, t :: out.2.1, out.2.2)
  | tri, ToolResultBlock.image src :: rest =>
    match mapImageBlockToOpenAI src with
    | OaiContentPart.image_url u d =>
      let out := scanToolResultContent (tri + 1) rest
      (out.1, ("[See image " ++ natToString (tri + 1) ++ " below]") :: out.2.1,
       OaiContentPart.image_url u d :: out.2.2)
    | OaiContentPart.text t =>
      let out := scanToolResultContent (tri + 1) rest
      (out.1, t :: out.2.1, out.2.2)

/-- The user-branch block loop of `formatInputMessage`, threading the
attachment counter and the tool-result image counter: returns the derived
tool-role messages (in push order) and the main message's content parts
(the map-filter-flatten of the source expressed as concatenation). -/
def formatUserContent (cacheMap : FileAttachmentCacheMap) :
    Nat → Nat → List ContentBlock → List OaiMessage × List OaiContentPart
  | _, _, [] => ([], [])
  | att, tri, c :: rest =>
    match c with
    | ContentBlock.text t =>
      let out := formatUserContent cacheMap att tri rest
      (out.1, OaiContentPart.text t :: out.2)
    | ContentBlock.tool_result tid blocks =>
      let scanned := scanToolResultContent tri blocks
      let out := formatUserContent cacheMap att scanned.1 rest
      (OaiMessage.tool (String.intercalate "\n" scanned.2.1) tid :: out.1,
       scanned.2.2 ++ out.2)
    | ContentBlock.image src =>
      let out := formatUserContent cacheMap att tri rest
      (out.1, mapImageBlockToOpenAI src :: out.2)
    | ContentBlock.file_attachment fileId mimeType =>
      match cacheMap fileId with
      | none => formatUserContent cacheMap att tri rest
      | some cache =>
        let textBlock := OaiContentPart.text
          ("Attachment " ++ natToString (att + 1) ++ ":\nMIME type: " ++ mimeType
            ++ "\nCached at: " ++ cache.cachePath)
        let out := formatUserContent cacheMap (att + 1) tri rest
        if isSupportedImageType mimeType then
          (out.1, textBlock :: OaiContentPart.image_url cache.signedUrl "high" :: out.2)
        else
          (out.1, textBlock :: out.2)
    | ContentBlock.tool_use _ _ _ =>
      formatUserContent cacheMap att tri rest

/-- `formatInputMessage`: a user message expands into its derived tool-role
messages followed by the main user message (omitted when its content is
empty after filtering); an assistant message maps its text blocks and
attaches its serialized tool calls only when at least one is present. -/
def formatInputMessage (message : Message) (cacheMap : FileAttachmentCacheMap) :
    List OaiMessage :=
  match message.role with
  | Role.user =>
    let out := formatUserContent cacheMap 0 0 message.content
    out.1 ++ (if out.2.length > 0 then [OaiMessage.user out.2] else [])
  | Role.assistant =>
    let toolCalls := message.content.filterMap (fun c =>
      match c with
      | ContentBlock.tool_use id name input =>
        some (OaiToolCall.mk id name (stringifyJson input))
      | _ => none)
    [OaiMessage.assistant
      (message.content.filterMap (fun c =>
        match c with
        | ContentBlock.text t => some (OaiContentPart.text t)
        | _ => none))
      (if toolCalls.length > 0 then some toolCalls else none)]

/-- A tool call on the provider's terminal completion message: only the
`function` kind carries a name and raw argument string; any other kind is
ignored by the mapper. -/
inductive OaiOutToolCall where
  | function (id : String) (name : String) (arguments : String)
  | other (id : String)
deriving DecidableEq

def OaiOutToolCall.isFunctionKind : OaiOutToolCall → Bool
  | OaiOutToolCall.function _ _ _ => true
  | OaiOutToolCall.other _ => false

/-- The provider's terminal `ChatCompletionMessage`: role, nullable content,
optional tool-call list. -/
structure OaiCompletionMessage where
  role : String
  content : Option String
  tool_calls : Option (List OaiOutToolCall)

/-- `prompt_tokens_details` of a provider usage record. -/
structure PromptTokensDetails where
  cached_tokens : Option Nat
deriving DecidableEq

/-- `completion_tokens_details` of a provider usage record. -/
structure CompletionTokensDetails where
  reasoning_tokens : Option Nat
deriving DecidableEq

/-- The provider's `CompletionUsage` record. -/
structure CompletionUsage where
  prompt_tokens : Nat
  completion_tokens : Nat
  total_tokens : Nat
  prompt_tokens_details : Option PromptTokensDetails
  completion_tokens_details : Option CompletionTokensDetails
deriving DecidableEq

/-- Input-side token counts of the normalized `TokenUsage`. -/
structure TokenUsageInput where
  total : Nat
  cacheRead : Option Nat
deriving DecidableEq

/-- Output-side token counts of the normalized `TokenUsage`. -/
structure TokenUsageOutput where
  total : Nat
  thinking : Option Nat
deriving DecidableEq

/-- The normalized `TokenUsage`. -/
structure TokenUsage where
  input : TokenUsageInput
  output : TokenUsageOutput
  total : Nat
deriving DecidableEq

/-- `mapOaiUsage`: totals are copied; the optional cache-read and reasoning
counts map to `none` exactly when the corresponding detail field is absent
(`?.` then `?? undefined`). -/
def mapOaiUsage (usage : CompletionUsage) : TokenUsage :=
  { input :=
      { total := usage.prompt_tokens
        cacheRead := usage.prompt_tokens_details.bind (fun d => d.cached_tokens) }
    output :=
      { total := usage.completion_tokens
        thinking := usage.completion_tokens_details.bind (fun d => d.reasoning_tokens) }
    total := usage.total_tokens }

/-- The internal `FinalMessage` (the wall-clock `timestamp` field is outside
the scope of this embedding and omitted). -/
structure FinalMessage where
  role : String
  content : List ContentBlock
  stop_reason : String
  usage : Option TokenUsage

/-- Mapping of one provider tool call to a `tool_use` content block: the raw
argument string is parsed as JSON, and a malformed payload is a hard failure
(the thrown `JSON.parse` exception, modelled as `Except.error`). The `other`
branch is unreachable behind the `function`-kind filter. -/
def parseFunctionToolCall : OaiOutToolCall → Except String ContentBlock
  | OaiOutToolCall.function id name args =>
    match parseJson args with
    | some input => Except.ok (ContentBlock.tool_use id name input)
    | none => Except.error ("SyntaxError: failed to parse tool call arguments as JSON: " ++ args)
  | OaiOutToolCall.other _ => Except.error "unsupported tool call kind"

/-- `mapOaiMessageToMessage`: copies the role, always includes a text block
(empty when the provider produced none), appends one `tool_use` block per
`function`-kind tool call with its arguments parsed as JSON, computes
`stop_reason` from the raw tool-call list (`tool_calls?.length ? "tool_use" :
"end_turn"`), and maps usage only when supplied. -/
def mapOaiMessageToMessage (message : OaiCompletionMessage)
    (usage : Option CompletionUsage) : Except String FinalMessage :=
  match ((message.tool_calls.getD []).filter OaiOutToolCall.isFunctionKind).mapM
      parseFunctionToolCall with
  | Except.error e => Except.error e
  | Except.ok toolUses =>
    Except.ok
      { role := message.role
        content := ContentBlock.text (message.content.getD "") :: toolUses
        stop_reason :=
          match message.tool_calls with
          | some (_ :: _) => "tool_use"
          | _ => "end_turn"
        usage := usage.map mapOaiUsage }

/-- A concrete raw stream on which the provider reports the call id only
after the first argument fragment: fragment 1 of position 0 arrives before
any id is recorded, a later chunk records `call_1` for position 0, then
fragment 2 arrives. -/
def c1LateIdSigs : List RawSignal :=
  [RawSignal.chunk [⟨some 0, none, some "f"⟩],
   RawSignal.argDelta "f" (some 0) "(",
   RawSignal.chunk [⟨some 0, some "call_1", none⟩],
   RawSignal.argDelta "f" (some 0) ")"]

theorem digitChar_isDigit {m : Nat} (h : m < 10) : (digitChar m).isDigit = true := by
  interval_cases m <;> decide

theorem charDigitVal_digitChar {m : Nat} (h : m < 10) : charDigitVal (digitChar m) = m := by
  interval_cases m <;> decide

theorem natDigitsAux_all_digits :
    ∀ fuel n, n < fuel → ∀ c ∈ natDigitsAux fuel n, c.isDigit = true := by
  intro fuel
  induction fuel with
  | zero => intro n h; omega
  | succ f ih =>
    intro n h c hc
    by_cases hn : n = 0
    · simp [natDigitsAux, hn] at hc
    · have hdiv : n / 10 < n := Nat.div_lt_self (Nat.pos_of_ne_zero hn) (by norm_num)
      simp only [natDigitsAux, if_neg hn, List.mem_append, List.mem_singleton] at hc
      rcases hc with hc | hc
      · exact ih (n / 10) (by omega) c hc
      · subst hc; exact digitChar_isDigit (Nat.mod_lt n (by norm_num))

theorem natDigitsAux_foldl :
    ∀ fuel n a, n < fuel →
      (natDigitsAux fuel n).foldl (fun a c => a * 10 + charDigitVal c) a
        = a * 10 ^ (natDigitsAux fuel n).length + n := by
  intro fuel
  induction fuel with
  | zero => intro n a h; omega
  | succ f ih =>
    intro n a h
    by_cases hn : n = 0
    · simp [natDigitsAux, hn]
    · have hdiv : n / 10 < n := Nat.div_lt_self (Nat.pos_of_ne_zero hn) (by norm_num)
      have hlt : n / 10 < f := by omega
      simp only [natDigitsAux, if_neg hn, List.foldl_append, List.foldl_cons, List.foldl_nil,
        List.length_append, List.length_cons, List.length_nil]
      rw [ih (n / 10) a hlt, charDigitVal_digitChar (Nat.mod_lt n (by norm_num))]
      rw [pow_succ]
      have := Nat.div_add_mod n 10
      ring_nf
      omega

theorem natDigitsAux_zero (fuel : Nat) : natDigitsAux fuel 0 = [] := by
  cases fuel <;> simp [natDigitsAux]

theorem natDigitsAux_head_ne_zero :
    ∀ fuel n, 0 < n → n < fuel →
      ∃ c t, natDigitsAux fuel n = c :: t ∧ c ≠ '0' := by
  intro fuel
  induction fuel with
  | zero => intro n h1 h2; omega
  | succ f ih =>
    intro n h1 h2
    have hn : n ≠ 0 := by omega
    simp only [natDigitsAux, if_neg hn]
    by_cases hq : n / 10 = 0
    · have h10 : n < 10 := by omega
      have hmod : n % 10 = n := Nat.mod_eq_of_lt h10
      refine ⟨digitChar (n % 10), [], by simp [hq, natDigitsAux_zero], ?_⟩
      rw [hmod]
      interval_cases n <;> decide
    · have hdiv : n / 10 < n := Nat.div_lt_self h1 (by norm_num)
      obtain ⟨c, t, heq, hne⟩ := ih (n / 10) (Nat.pos_of_ne_zero hq) (by omega)
      exact ⟨c, t ++ [digitChar (n % 10)], by rw [heq]; rfl, hne⟩

theorem natToChars_all_digits (n : Nat) : ∀ c ∈ natToChars n, c.isDigit = true := by
  intro c hc
  by_cases hn : n = 0
  · simp [natToChars, hn] at hc; subst hc; decide
  · simp only [natToChars, if_neg hn] at hc
    exact natDigitsAux_all_digits (n + 1) n (by omega) c hc

theorem natToChars_ne_nil (n : Nat) : natToChars n ≠ [] := by
  by_cases hn : n = 0
  · simp [natToChars, hn]
  · simp only [natToChars, if_neg hn]
    obtain ⟨c, t, heq, _⟩ := natDigitsAux_head_ne_zero (n + 1) n (Nat.pos_of_ne_zero hn) (by omega)
    simp [heq]

theorem digitsToNat_natToChars (n : Nat) : digitsToNat (natToChars n) = n := by
  by_cases hn : n = 0
  · simp [natToChars, hn, digitsToNat, charDigitVal]
  · simp only [natToChars, if_neg hn, digitsToNat]
    rw [natDigitsAux_foldl (n + 1) n 0 (by omega)]
    simp

theorem takeWhile_append_of_forall {p : Char → Bool} :
    ∀ (l₁ l₂ : List Char), (∀ c ∈ l₁, p c = true) →
      (∀ c t, l₂ = c :: t → p c = false) →
      (l₁ ++ l₂).takeWhile p = l₁ ∧ (l₁ ++ l₂).dropWhile p = l₂ := by
  intro l₁
  induction l₁ with
  | nil =>
    intro l₂ _ h2
    cases l₂ with
    | nil => simp
    | cons c t => simp [List.takeWhile, List.dropWhile, h2 c t rfl]
  | cons c l ih =>
    intro l₂ h1 h2
    have hc : p c = true := h1 c (List.mem_cons_self c l)
    have := ih l₂ (fun x hx => h1 x (List.mem_cons_of_mem c hx)) h2
    simp [List.takeWhile, List.dropWhile, hc, this.1, this.2]

theorem readNat_natToChars (n : Nat) (rest : List Char) (hrest : headNotDigit rest = true) :
    readNat (natToChars n ++ rest) = some (n, rest) := by
  have hstop : ∀ c t, rest = c :: t → c.isDigit = false := by
    intro c t h
    subst h
    simpa [headNotDigit] using hrest
  have htd := takeWhile_append_of_forall (natToChars n) rest (natToChars_all_digits n) hstop
  have hval : digitsToNat (natToChars n) = n := digitsToNat_natToChars n
  by_cases hn : n = 0
  · subst hn
    have hform : natToChars 0 = '0' :: [] := by simp [natToChars]
    rw [readNat, htd.1, htd.2, hform]
    rw [hform] at hval
    simp [hval]
  · obtain ⟨c, t, heq, hne⟩ :=
      natDigitsAux_head_ne_zero (n + 1) n (Nat.pos_of_ne_zero hn) (by omega)
    have hform : natToChars n = c :: t := by
      simp only [natToChars, if_neg hn]; exact heq
    rw [readNat, htd.1, htd.2, hform]
    rw [hform] at hval
    simp [hne, hval]

theorem natToChars_injective : Function.Injective natToChars := by
  intro m n h
  have hm := readNat_natToChars m [] (by rfl)
  have hn := readNat_natToChars n [] (by rfl)
  rw [List.append_nil] at hm hn
  rw [h, hn] at hm
  exact (congrArg Prod.fst (Option.some.inj hm)).symm

theorem natToString_injective : Function.Injective natToString := by
  intro m n h
  exact natToChars_injective (congrArg String.data h)

theorem hexVal_hexDigitChar {m : Nat} (h : m < 16) : hexVal (hexDigitChar m) = some m := by
  interval_cases m <;> decide

theorem parseStringBody_esc_quote (t : List Char) :
    parseStringBody ('\\' :: '"' :: t)
      = match parseStringBody t with
        | some (sp, r) => some ('"' :: sp, r)
        | none => none := rfl

theorem parseStringBody_esc_backslash (t : List Char) :
    parseStringBody ('\\' :: '\\' :: t)
      = match parseStringBody t with
        | some (sp, r) => some ('\\' :: sp, r)
        | none => none := rfl

theorem parseStringBody_esc_b (t : List Char) :
    parseStringBody ('\\' :: 'b' :: t)
      = match parseStringBody t with
        | some (sp, r) => some (Char.ofNat 8 :: sp, r)
        | none => none := rfl

theorem parseStringBody_esc_f (t : List Char) :
    parseStringBody ('\\' :: 'f' :: t)
      = match parseStringBody t with
        | some (sp, r) => some (Char.ofNat 12 :: sp, r)
        | none => none := rfl

theorem parseStringBody_esc_n (t : List Char) :
    parseStringBody ('\\' :: 'n' :: t)
      = match parseStringBody t with
        | some (sp, r) => some ('\n' :: sp, r)
        | none => none := rfl

theorem parseStringBody_esc_r (t : List Char) :
    parseStringBody ('\\' :: 'r' :: t)
      = match parseStringBody t with
        | some (sp, r) => some (Char.ofNat 13 :: sp, r)
        | none => none := rfl

theorem parseStringBody_esc_t (t : List Char) :
    parseStringBody ('\\' :: 't' :: t)
      = match parseStringBody t with
        | some (sp, r) => some ('\t' :: sp, r)
        | none => none := rfl

theorem parseStringBody_esc_unicode (x y : Char) (t : List Char) (a b : Nat)
    (hx : hexVal x = some a) (hy : hexVal y = some b) :
    parseStringBody ('\\' :: 'u' :: '0' :: '0' :: x :: y :: t)
      = (if ((0 * 16 + 0) * 16 + a) * 16 + b < 55296 ∨
            (57344 ≤ ((0 * 16 + 0) * 16 + a) * 16 + b ∧
             ((0 * 16 + 0) * 16 + a) * 16 + b < 1114112) then
          match parseStringBody t with
          | some (sp, r) => some (Char.ofNat (((0 * 16 + 0) * 16 + a) * 16 + b) :: sp, r)
          | none => none
        else none) := by
  have hred : parseStringBody ('\\' :: 'u' :: '0' :: '0' :: x :: y :: t)
      = match hexVal '0', hexVal '0', hexVal x, hexVal y with
        | some a, some b, some c3, some d =>
          let n := ((a * 16 + b) * 16 + c3) * 16 + d
          if n < 55296 ∨ (57344 ≤ n ∧ n < 1114112) then
            match parseStringBody t with
            | some (s, r) => some (Char.ofNat n :: s, r)
            | none => none
          else none
        | _, _, _, _ => none := rfl
  rw [hred, hx, hy]
  rfl

theorem parseStringBody_plain (c : Char) (t : List Char)
    (h1 : c ≠ '"') (h2 : c ≠ '\\') (h3 : ¬ c.toNat < 32) :
    parseStringBody (c :: t)
      = match parseStringBody t with
        | some (sp, r) => some (c :: sp, r)
        | none => none := by
  rw [parseStringBody.eq_def]
  split <;> simp_all

theorem parseStringBody_encodeBody :
    ∀ (s rest : List Char),
      parseStringBody (encodeBody s ++ '"' :: rest) = some (s, rest) := by
  intro s
  induction s with
  | nil => intro rest; rfl
  | cons c s ih =>
    intro rest
    have hstep : encodeBody (c :: s) ++ '"' :: rest
        = encodeChar c ++ (encodeBody s ++ '"' :: rest) := by
      simp [encodeBody]
    rw [hstep]
    by_cases h1 : c = '"'
    · subst h1
      rw [show encodeChar '"' = ['\\', '"'] from rfl]
      simp only [List.cons_append, List.nil_append]
      rw [parseStringBody_esc_quote, ih rest]
    · by_cases h2 : c = '\\'
      · subst h2
        rw [show encodeChar '\\' = ['\\', '\\'] from rfl]
        simp only [List.cons_append, List.nil_append]
        rw [parseStringBody_esc_backslash, ih rest]
      · by_cases h3 : c = Char.ofNat 8
        · subst h3
          rw [show encodeChar (Char.ofNat 8) = ['\\', 'b'] from rfl]
          simp only [List.cons_append, List.nil_append]
          rw [parseStringBody_esc_b, ih rest]
        · by_cases h4 : c = Char.ofNat 12
          · subst h4
            rw [show encodeChar (Char.ofNat 12) = ['\\', 'f'] from rfl]
            simp only [List.cons_append, List.nil_append]
            rw [parseStringBody_esc_f, ih rest]
          · by_cases h5 : c = '\n'
            · subst h5
              rw [show encodeChar '\n' = ['\\', 'n'] from rfl]
              simp only [List.cons_append, List.nil_append]
              rw [parseStringBody_esc_n, ih rest]
            · by_cases h6 : c = Char.ofNat 13
              · subst h6
                rw [show encodeChar (Char.ofNat 13) = ['\\', 'r'] from rfl]
                simp only [List.cons_append, List.nil_append]
                rw [parseStringBody_esc_r, ih rest]
              · by_cases h7 : c = '\t'
                · subst h7
                  rw [show encodeChar '\t' = ['\\', 't'] from rfl]
                  simp only [List.cons_append, List.nil_append]
                  rw [parseStringBody_esc_t, ih rest]
                · by_cases h8 : c.toNat < 32
                  · have henc : encodeChar c
                        = ['\\', 'u', '0', '0', hexDigitChar (c.toNat / 16),
                           hexDigitChar (c.toNat % 16)] := by
                      simp only [encodeChar, if_neg h1, if_neg h2, if_neg h3, if_neg h4,
                        if_neg h5, if_neg h6, if_neg h7, if_pos h8]
                    have hdiv : c.toNat / 16 < 16 := by omega
                    have hmod : c.toNat % 16 < 16 := Nat.mod_lt _ (by norm_num)
                    rw [henc]
                    simp only [List.cons_append, List.nil_append]
                    rw [parseStringBody_esc_unicode _ _ _ _ _
                      (hexVal_hexDigitChar hdiv) (hexVal_hexDigitChar hmod)]
                    have hn : ((0 * 16 + 0) * 16 + c.toNat / 16) * 16 + c.toNat % 16
                        = c.toNat := by omega
                    rw [hn, if_pos (Or.inl (show c.toNat < 55296 by omega)), ih rest,
                      Char.ofNat_toNat]
                  · have henc : encodeChar c = [c] := by
                      simp only [encodeChar, if_neg h1, if_neg h2, if_neg h3, if_neg h4,
                        if_neg h5, if_neg h6, if_neg h7, if_neg h8]
                    rw [henc]
                    simp only [List.cons_append, List.nil_append]
                    rw [parseStringBody_plain c _ h1 h2 h8, ih rest]

theorem sizeJson_pos (j : Json) : 1 ≤ sizeJson j := by
  cases j <;> simp [sizeJson]

theorem stringifyData_head (j : Json) :
    ∃ c t, stringifyData j = c :: t ∧ valueHead c = true := by
  cases j with
  | null => exact ⟨'n', ['u', 'l', 'l'], by simp [stringifyData], by decide⟩
  | bool b =>
    cases b with
    | false => exact ⟨'f', ['a', 'l', 's', 'e'], by simp [stringifyData], by decide⟩
    | true => exact ⟨'t', ['r', 'u', 'e'], by simp [stringifyData], by decide⟩
  | num n =>
    cases n with
    | ofNat m =>
      have hne := natToChars_ne_nil m
      rcases hc : natToChars m with _ | ⟨c, t⟩
      · exact absurd hc hne
      · have hd : c.isDigit = true := by
          apply natToChars_all_digits m
          rw [hc]; exact List.mem_cons_self c t
        refine ⟨c, t, ?_, by simp [valueHead, hd]⟩
        simp [stringifyData, intToChars, hc]
    | negSucc m =>
      exact ⟨'-', natToChars (m + 1), by simp [stringifyData, intToChars], by decide⟩
  | str s =>
    exact ⟨'"', encodeBody s.data ++ ['"'], by simp [stringifyData], by decide⟩
  | arr es =>
    exact ⟨'[', stringifyElems es ++ [']'], by simp [stringifyData], by decide⟩
  | obj fs =>
    exact ⟨'{', stringifyFields fs ++ ['}'], by simp [stringifyData], by decide⟩

theorem valueHead_not_ws {c : Char} (h : valueHead c = true) : isWsChar c = false := by
  simp only [valueHead, Bool.or_eq_true, beq_iff_eq] at h
  rcases h with ((((((h | h) | h) | h) | h) | h) | h) | h
  case _ => subst h; decide
  case _ => subst h; decide
  case _ => subst h; decide
  case _ => subst h; decide
  case _ => subst h; decide
  case _ => subst h; decide
  case _ => subst h; decide
  case _ =>
    by_cases h1 : c = ' '
    · subst h1; exact absurd h (by decide)
    · by_cases h2 : c = '\t'
      · subst h2; exact absurd h (by decide)
      · by_cases h3 : c = '\n'
        · subst h3; exact absurd h (by decide)
        · by_cases h4 : c = '\r'
          · subst h4; exact absurd h (by decide)
          · simp only [isWsChar, Bool.or_eq_false_iff, beq_eq_false_iff_ne, ne_eq]
            exact ⟨⟨⟨h1, h2⟩, h3⟩, h4⟩

theorem valueHead_ne_rbracket {c : Char} (h : valueHead c = true) :
    c ≠ ']' ∧ c ≠ '}' := by
  simp only [valueHead, Bool.or_eq_true, beq_iff_eq] at h
  constructor <;> intro he <;> subst he <;>
    rcases h with ((((((h | h) | h) | h) | h) | h) | h) | h <;>
    exact absurd h (by decide)

theorem skipWs_not_ws {c : Char} (t : List Char) (h : isWsChar c = false) :
    skipWs (c :: t) = c :: t := by
  simp [skipWs, h]

theorem parseValue_red_null (fuel : Nat) (rest : List Char) :
    parseValue (fuel + 1) ('n' :: 'u' :: 'l' :: 'l' :: rest) = some (Json.null, rest) := rfl

theorem parseValue_red_true (fuel : Nat) (rest : List Char) :
    parseValue (fuel + 1) ('t' :: 'r' :: 'u' :: 'e' :: rest) = some (Json.bool true, rest) := rfl

theorem parseValue_red_false (fuel : Nat) (rest : List Char) :
    parseValue (fuel + 1) ('f' :: 'a' :: 'l' :: 's' :: 'e' :: rest)
      = some (Json.bool false, rest) := rfl

theorem parseValue_red_str (fuel : Nat) (t : List Char) :
    parseValue (fuel + 1) ('"' :: t)
      = match parseStringBody t with
        | some (s, r) => some (Json.str ⟨s⟩, r)
        | none => none := rfl

theorem parseValue_red_arr (fuel : Nat) (t : List Char) :
    parseValue (fuel + 1) ('[' :: t)
      = match skipWs t with
        | ']' :: rest => some (Json.arr [], rest)
        | cs2 =>
          match parseElems fuel cs2 with
          | some (js, r) => some (Json.arr js, r)
          | none => none := rfl

theorem parseValue_red_obj (fuel : Nat) (t : List Char) :
    parseValue (fuel + 1) ('{' :: t)
      = match skipWs t with
        | '}' :: rest => some (Json.obj [], rest)
        | cs2 =>
          match parseFields fuel cs2 with
          | some (fs, r) => some (Json.obj fs, r)
          | none => none := rfl

theorem parseValue_red_neg (fuel : Nat) (t : List Char) :
    parseValue (fuel + 1) ('-' :: t)
      = match readNat t with
        | some (n, rest) => some (Json.num (-(n : Int)), rest)
        | none => none := rfl

theorem parseElems_red (fuel : Nat) (cs : List Char) :
    parseElems (fuel + 1) cs
      = match parseValue fuel cs with
        | some (j, rest) =>
          (match skipWs rest with
           | ',' :: rest2 =>
             match parseElems fuel rest2 with
             | some (js, r) => some (j :: js, r)
             | none => none
           | ']' :: rest2 => some ([j], rest2)
           | _ => none)
        | none => none := rfl

theorem parseFields_red (fuel : Nat) (cs : List Char) :
    parseFields (fuel + 1) cs
      = match skipWs cs with
        | '"' :: cs1 =>
          (match parseStringBody cs1 with
           | some (kchars, cs2) =>
             (match skipWs cs2 with
              | ':' :: cs3 =>
                (match parseValue fuel cs3 with
                 | some (v, cs4) =>
                   (match skipWs cs4 with
                    | ',' :: cs5 =>
                      (match parseFields fuel cs5 with
                       | some (fs, r) => some ((⟨kchars⟩, v) :: fs, r)
                       | none => none)
                    | '}' :: cs5 => some ([(⟨kchars⟩, v)], cs5)
                    | _ => none)
                 | none => none)
              | _ => none)
           | none => none)
        | _ => none := rfl

theorem parseValue_red_digit (fuel : Nat) (c : Char) (t : List Char) (hc : c.isDigit = true) :
    parseValue (fuel + 1) (c :: t)
      = match readNat (c :: t) with
        | some (n, rest) => some (Json.num (n : Int), rest)
        | none => none := by
  have hvh : valueHead c = true := by simp [valueHead, hc]
  have hws : isWsChar c = false := valueHead_not_ws hvh
  have hn : c ≠ 'n' := by intro he; subst he; exact absurd hc (by decide)
  have ht : c ≠ 't' := by intro he; subst he; exact absurd hc (by decide)
  have hf : c ≠ 'f' := by intro he; subst he; exact absurd hc (by decide)
  have hq : c ≠ '"' := by intro he; subst he; exact absurd hc (by decide)
  have hl : c ≠ '[' := by intro he; subst he; exact absurd hc (by decide)
  have hb : c ≠ '{' := by intro he; subst he; exact absurd hc (by decide)
  have hm : c ≠ '-' := by intro he; subst he; exact absurd hc (by decide)
  rw [parseValue.eq_def]
  simp only [skipWs_not_ws t hws, if_neg hn, if_neg ht, if_neg hf, if_neg hq, if_neg hl,
    if_neg hb, if_neg hm, if_pos hc]

theorem parseFields_red_quote (fuel : Nat) (t : List Char) :
    parseFields (fuel + 1) ('"' :: t)
      = match parseStringBody t with
        | some (kchars, cs2) =>
          (match skipWs cs2 with
           | ':' :: cs3 =>
             (match parseValue fuel cs3 with
              | some (v, cs4) =>
                (match skipWs cs4 with
                 | ',' :: cs5 =>
                   (match parseFields fuel cs5 with
                    | some (fs, r) => some ((⟨kchars⟩, v) :: fs, r)
                    | none => none)
                 | '}' :: cs5 => some ([(⟨kchars⟩, v)], cs5)
                 | _ => none)
              | none => none)
           | _ => none)
        | none => none := rfl

theorem stringifyElems_cons_head (e : Json) (es : List Json) :
    ∃ c t, stringifyElems (e :: es) = c :: t ∧ valueHead c = true := by
  obtain ⟨c, t, heq, hv⟩ := stringifyData_head e
  cases es with
  | nil => exact ⟨c, t, by simp [stringifyElems, heq], hv⟩
  | cons e2 es2 =>
    exact ⟨c, t ++ ',' :: stringifyElems (e2 :: es2), by simp [stringifyElems, heq], hv⟩

theorem parse_stringify_aux : ∀ fuel : Nat,
    (∀ j rest, sizeJson j ≤ fuel → headNotDigit rest = true →
      parseValue fuel (stringifyData j ++ rest) = some (j, rest)) ∧
    (∀ es rest, es ≠ [] → sizeElems es ≤ fuel →
      parseElems fuel (stringifyElems es ++ ']' :: rest) = some (es, rest)) ∧
    (∀ fs rest, fs ≠ [] → sizeFields fs ≤ fuel →
      parseFields fuel (stringifyFields fs ++ '}' :: rest) = some (fs, rest)) := by
  intro fuel
  induction fuel with
  | zero =>
    refine ⟨fun j rest hs _ => absurd hs (by have := sizeJson_pos j; omega),
            fun es rest hne hs => ?_, fun fs rest hne hs => ?_⟩
    · cases es with
      | nil => exact absurd rfl hne
      | cons e es => simp [sizeElems] at hs
    · cases fs with
      | nil => exact absurd rfl hne
      | cons f fs => obtain ⟨k, v⟩ := f; simp [sizeFields] at hs
  | succ fuel ih =>
    obtain ⟨ihV, ihE, ihF⟩ := ih
    refine ⟨?_, ?_, ?_⟩
    · intro j rest hs hrest
      cases j with
      | null =>
        rw [show stringifyData Json.null = ['n', 'u', 'l', 'l'] by simp [stringifyData]]
        exact parseValue_red_null fuel rest
      | bool b =>
        cases b with
        | true =>
          rw [show stringifyData (Json.bool true) = ['t', 'r', 'u', 'e'] by simp [stringifyData]]
          exact parseValue_red_true fuel rest
        | false =>
          rw [show stringifyData (Json.bool false) = ['f', 'a', 'l', 's', 'e']
            by simp [stringifyData]]
          exact parseValue_red_false fuel rest
      | num n =>
        cases n with
        | ofNat m =>
          have hform : stringifyData (Json.num (Int.ofNat m)) = natToChars m := by
            simp [stringifyData, intToChars]
          rw [hform]
          rcases hc : natToChars m with _ | ⟨c, t⟩
          · exact absurd hc (natToChars_ne_nil m)
          · have hd : c.isDigit = true := by
              apply natToChars_all_digits m
              rw [hc]; exact List.mem_cons_self c t
            have hkey : c :: (t ++ rest) = natToChars m ++ rest := by simp [hc]
            rw [List.cons_append, parseValue_red_digit fuel c _ hd, hkey,
              readNat_natToChars m rest hrest]
            rfl
        | negSucc m =>
          have hform : stringifyData (Json.num (Int.negSucc m)) = '-' :: natToChars (m + 1) := by
            simp [stringifyData, intToChars]
          rw [hform, List.cons_append, parseValue_red_neg fuel _,
            readNat_natToChars (m + 1) rest hrest]
          simp [Int.negSucc_eq]
      | str s =>
        have hform : stringifyData (Json.str s) ++ rest
            = '"' :: (encodeBody s.data ++ '"' :: rest) := by
          simp [stringifyData]
        rw [hform, parseValue_red_str fuel _, parseStringBody_encodeBody]
      | arr es =>
        cases es with
        | nil =>
          have hform : stringifyData (Json.arr []) ++ rest = '[' :: ']' :: rest := by
            simp [stringifyData, stringifyElems]
          rw [hform]
          exact (rfl : parseValue (fuel + 1) ('[' :: ']' :: rest) = some (Json.arr [], rest))
        | cons e es2 =>
          have hsz : sizeElems (e :: es2) ≤ fuel := by
            simp only [sizeJson] at hs; omega
          have hform : stringifyData (Json.arr (e :: es2)) ++ rest
              = '[' :: (stringifyElems (e :: es2) ++ ']' :: rest) := by
            simp [stringifyData]
          rw [hform, parseValue_red_arr fuel _]
          obtain ⟨c, t, heq, hv⟩ := stringifyElems_cons_head e es2
          rw [heq, List.cons_append, skipWs_not_ws _ (valueHead_not_ws hv)]
          have hner : c ≠ ']' := (valueHead_ne_rbracket hv).1
          split
          · rename_i hmatch
            exact absurd (List.cons.inj hmatch).1 hner
          · rw [← List.cons_append, ← heq, ihE (e :: es2) rest (by simp) hsz]
      | obj fs =>
        cases fs with
        | nil =>
          have hform : stringifyData (Json.obj []) ++ rest = '{' :: '}' :: rest := by
            simp [stringifyData, stringifyFields]
          rw [hform]
          exact (rfl : parseValue (fuel + 1) ('{' :: '}' :: rest) = some (Json.obj [], rest))
        | cons kv fs2 =>
          obtain ⟨k, v⟩ := kv
          have hsz : sizeFields ((k, v) :: fs2) ≤ fuel := by
            simp only [sizeJson] at hs; omega
          have hform : stringifyData (Json.obj ((k, v) :: fs2)) ++ rest
              = '{' :: (stringifyFields ((k, v) :: fs2) ++ '}' :: rest) := by
            simp [stringifyData]
          rw [hform, parseValue_red_obj fuel _]
          have hq : stringifyFields ((k, v) :: fs2) ++ '}' :: rest
              = '"' :: ((stringifyFields ((k, v) :: fs2)).tail ++ '}' :: rest) := by
            cases fs2 <;> simp [stringifyFields]
          rw [hq, skipWs_not_ws _ (by decide)]
          split
          · rename_i hmatch
            exact absurd (List.cons.inj hmatch).1 (by decide)
          · rw [← hq, ihF ((k, v) :: fs2) rest (by simp) hsz]
    · intro es rest hne hs
      cases es with
      | nil => exact absurd rfl hne
      | cons e es2 =>
        rw [parseElems_red]
        cases es2 with
        | nil =>
          have hse : sizeJson e ≤ fuel := by simp only [sizeElems] at hs; omega
          have hform : stringifyElems [e] ++ ']' :: rest = stringifyData e ++ ']' :: rest := by
            simp [stringifyElems]
          rw [hform, ihV e (']' :: rest) hse rfl]
          rfl
        | cons e2 es3 =>
          have hse : sizeJson e ≤ fuel := by simp only [sizeElems] at hs; omega
          have hs2 : sizeElems (e2 :: es3) ≤ fuel := by
            simp only [sizeElems] at hs ⊢; omega
          have hform : stringifyElems (e :: e2 :: es3) ++ ']' :: rest
              = stringifyData e ++ ',' :: (stringifyElems (e2 :: es3) ++ ']' :: rest) := by
            simp [stringifyElems]
          rw [hform,
            ihV e (',' :: (stringifyElems (e2 :: es3) ++ ']' :: rest)) hse rfl]
          show (match parseElems fuel (stringifyElems (e2 :: es3) ++ ']' :: rest) with
                | some (js, r) => some (e :: js, r)
                | none => none)
              = some (e :: e2 :: es3, rest)
          rw [ihE (e2 :: es3) rest (by simp) hs2]
    · intro fs rest hne hs
      cases fs with
      | nil => exact absurd rfl hne
      | cons kv fs2 =>
        obtain ⟨k, v⟩ := kv
        cases fs2 with
        | nil =>
          have hsv : sizeJson v ≤ fuel := by simp only [sizeFields] at hs; omega
          have hform : stringifyFields [(k, v)] ++ '}' :: rest
              = '"' :: (encodeBody k.data ++ '"' :: ':' :: (stringifyData v ++ '}' :: rest)) := by
            simp [stringifyFields]
          rw [hform, parseFields_red_quote fuel _, parseStringBody_encodeBody]
          show (match parseValue fuel (stringifyData v ++ '}' :: rest) with
                | some (w, cs4) =>
                  (match skipWs cs4 with
                   | ',' :: cs5 =>
                     (match parseFields fuel cs5 with
                      | some (gs, r) => some ((⟨k.data⟩, w) :: gs, r)
                      | none => none)
                   | '}' :: cs5 => some ([(⟨k.data⟩, w)], cs5)
                   | _ => none)
                | none => none)
              = some ([(k, v)], rest)
          rw [ihV v ('}' :: rest) hsv rfl]
          rfl
        | cons kv2 fs3 =>
          have hsv : sizeJson v ≤ fuel := by simp only [sizeFields] at hs; omega
          have hs2 : sizeFields (kv2 :: fs3) ≤ fuel := by
            obtain ⟨k2, v2⟩ := kv2
            simp only [sizeFields] at hs ⊢; omega
          have hform : stringifyFields ((k, v) :: kv2 :: fs3) ++ '}' :: rest
              = '"' :: (encodeBody k.data ++ '"' :: ':' ::
                  (stringifyData v ++ ',' :: (stringifyFields (kv2 :: fs3) ++ '}' :: rest))) := by
            obtain ⟨k2, v2⟩ := kv2
            simp [stringifyFields]
          rw [hform, parseFields_red_quote fuel _, parseStringBody_encodeBody]
          show (match parseValue fuel
                  (stringifyData v ++ ',' :: (stringifyFields (kv2 :: fs3) ++ '}' :: rest)) with
                | some (w, cs4) =>
                  (match skipWs cs4 with
                   | ',' :: cs5 =>
                     (match parseFields fuel cs5 with
                      | some (gs, r) => some ((⟨k.data⟩, w) :: gs, r)
                      | none => none)
                   | '}' :: cs5 => some ([(⟨k.data⟩, w)], cs5)
                   | _ => none)
                | none => none)
              = some ((k, v) :: kv2 :: fs3, rest)
          rw [ihV v (',' :: (stringifyFields (kv2 :: fs3) ++ '}' :: rest)) hsv rfl]
          show (match parseFields fuel (stringifyFields (kv2 :: fs3) ++ '}' :: rest) with
                | some (gs, r) => some ((⟨k.data⟩, v) :: gs, r)
                | none => none)
              = some ((k, v) :: kv2 :: fs3, rest)
          rw [ihF (kv2 :: fs3) rest (by simp) hs2]

theorem sizeJson_le_length_aux : ∀ N : Nat,
    (∀ j : Json, sizeOf j ≤ N → sizeJson j ≤ (stringifyData j).length) ∧
    (∀ es : List Json, sizeOf es ≤ N → sizeElems es ≤ (stringifyElems es).length + 1) ∧
    (∀ fs : List (String × Json), sizeOf fs ≤ N →
      sizeFields fs ≤ (stringifyFields fs).length + 1) := by
  intro N
  induction N with
  | zero =>
    refine ⟨fun j h => ?_, fun es h => ?_, fun fs h => ?_⟩
    · cases j <;> simp at h
    · cases es <;> simp at h
    · cases fs <;> simp at h
  | succ N ih =>
    obtain ⟨ihV, ihE, ihF⟩ := ih
    refine ⟨fun j h => ?_, fun es h => ?_, fun fs h => ?_⟩
    · cases j with
      | null => simp [sizeJson, stringifyData]
      | bool b => cases b <;> simp [sizeJson, stringifyData]
      | num n =>
        have hlen : 1 ≤ (intToChars n).length := by
          cases n with
          | ofNat m =>
            have := natToChars_ne_nil m
            simp only [intToChars]
            exact List.length_pos.mpr this
          | negSucc m => simp [intToChars]
        simp only [sizeJson, stringifyData]
        omega
      | str s => simp [sizeJson, stringifyData]
      | arr es =>
        have hes : sizeOf es ≤ N := by
          have : sizeOf (Json.arr es) = 1 + sizeOf es := by simp
          omega
        have := ihE es hes
        simp only [sizeJson, stringifyData, List.length_cons, List.length_append,
          List.length_singleton]
        omega
      | obj fs =>
        have hfs : sizeOf fs ≤ N := by
          have : sizeOf (Json.obj fs) = 1 + sizeOf fs := by simp
          omega
        have := ihF fs hfs
        simp only [sizeJson, stringifyData, List.length_cons, List.length_append,
          List.length_singleton]
        omega
    · cases es with
      | nil => simp [sizeElems]
      | cons e es2 =>
        have he : sizeOf e ≤ N := by
          have : sizeOf (e :: es2) = 1 + sizeOf e + sizeOf es2 := by simp
          have hp : 1 ≤ sizeOf es2 := by cases es2 <;> simp_arith
          omega
        have hes2 : sizeOf es2 ≤ N := by
          have : sizeOf (e :: es2) = 1 + sizeOf e + sizeOf es2 := by simp
          have hp : 1 ≤ sizeOf e := by cases e <;> simp_arith
          omega
        have h1 := ihV e he
        cases es2 with
        | nil => simp only [sizeElems, stringifyElems]; omega
        | cons e2 es3 =>
          have h2 := ihE (e2 :: es3) hes2
          simp only [sizeElems, stringifyElems, List.length_append, List.length_cons] at h2 ⊢
          omega
    · cases fs with
      | nil => simp [sizeFields]
      | cons kv fs2 =>
        obtain ⟨k, v⟩ := kv
        have hv : sizeOf v ≤ N := by
          have : sizeOf ((k, v) :: fs2) = 1 + (1 + sizeOf k + sizeOf v) + sizeOf fs2 := by simp
          have hp : 1 ≤ sizeOf fs2 := by cases fs2 <;> simp_arith
          omega
        have hfs2 : sizeOf fs2 ≤ N := by
          have : sizeOf ((k, v) :: fs2) = 1 + (1 + sizeOf k + sizeOf v) + sizeOf fs2 := by simp
          have hp : 1 ≤ sizeOf k := by cases k; simp_arith
          omega
        have h1 := ihV v hv
        cases fs2 with
        | nil =>
          simp only [sizeFields, stringifyFields, List.length_cons, List.length_append]
          omega
        | cons kv2 fs3 =>
          have h2 := ihF (kv2 :: fs3) hfs2
          simp only [sizeFields, stringifyFields, List.length_cons, List.length_append] at h2 ⊢
          omega

/-- `JSON.parse` inverts `JSON.stringify`: the round trip on the JSON model is
the identity, as it is for JSON-representable JavaScript values. -/
theorem parseJson_stringifyJson (j : Json) : parseJson (stringifyJson j) = some j := by
  have hsize : sizeJson j ≤ (stringifyData j).length :=
    (sizeJson_le_length_aux (sizeOf j)).1 j le_rfl
  have hmain := (parse_stringify_aux ((stringifyData j).length + 1)).1 j [] (by omega) rfl
  rw [List.append_nil] at hmain
  unfold parseJson
  have hlen : (stringifyJson j).length = (stringifyData j).length := rfl
  have hdata : (stringifyJson j).data = stringifyData j := rfl
  rw [hlen, hdata, hmain]
  rfl

theorem fallbackId_injective : Function.Injective fallbackId := by
  intro m n h
  have hdata := congrArg String.data h
  simp only [fallbackId, String.data_append] at hdata
  have := List.append_cancel_left hdata
  exact natToString_injective (by
    have : (natToString m).data = (natToString n).data := this
    exact String.ext this)

theorem chunkGo_emitted_auto :
    ∀ tcs st i, (chunkGo st i tcs).emittedToolCalls = st.emittedToolCalls
      ∧ (chunkGo st i tcs).nextAutoIndex = st.nextAutoIndex := by
  intro tcs
  induction tcs with
  | nil => intro st i; exact ⟨rfl, rfl⟩
  | cons tc rest ih =>
    intro st i
    simp only [chunkGo]
    cases tc.id with
    | none => exact ih st (i + 1)
    | some id => exact ih _ (i + 1)

theorem chunkGo_maps_of_no_id :
    ∀ tcs st i, (∀ tc ∈ tcs, tc.id.isNone = true) →
      chunkGo st i tcs = st := by
  intro tcs
  induction tcs with
  | nil => intro st i _; rfl
  | cons tc rest ih =>
    intro st i h
    have hid : tc.id = none := by
      have := h tc (List.mem_cons_self tc rest)
      cases hc : tc.id with
      | none => rfl
      | some x => rw [hc] at this; simp at this
    simp only [chunkGo, hid]
    exact ih st (i + 1) (fun x hx => h x (List.mem_cons_of_mem tc hx))

theorem stepOut_contentDelta (st : StreamState) (d : String) :
    stepOut st (RawSignal.contentDelta d) = (st, [(none, ModelEvent.text d)]) := rfl

theorem stepOut_chunk (st : StreamState) (tcs : List RawToolCallDelta) :
    stepOut st (RawSignal.chunk tcs) = (chunkStep st tcs, []) := rfl

theorem stepOut_argDelta_old (st : StreamState) (name : String) (index : Option Nat)
    (delta : String)
    (h : natToString (resolveIndex st index) ∈ st.emittedToolCalls) :
    stepOut st (RawSignal.argDelta name index delta)
      = (st, [(some (resolveIndex st index),
          ModelEvent.tool_use_input (resolveId st (resolveIndex st index) name) name delta)]) := by
  simp [stepOut, argDeltaStep, h]

theorem stepOut_argDelta_new (st : StreamState) (name : String) (index : Option Nat)
    (delta : String)
    (h : natToString (resolveIndex st index) ∉ st.emittedToolCalls) :
    stepOut st (RawSignal.argDelta name index delta)
      = ({ st with
            emittedToolCalls := natToString (resolveIndex st index) :: st.emittedToolCalls
            nextAutoIndex := resolveIndex st index + 1 },
         [(some (resolveIndex st index),
           ModelEvent.tool_use (resolveId st (resolveIndex st index) name) name),
          (some (resolveIndex st index),
           ModelEvent.tool_use_input (resolveId st (resolveIndex st index) name) name delta)]) := by
  simp [stepOut, argDeltaStep, h]

theorem eventsAtFrom_nil (st : StreamState) (p : Nat) : eventsAtFrom st [] p = [] := rfl

theorem eventsAtFrom_cons (st : StreamState) (sig : RawSignal) (rest : List RawSignal) (p : Nat) :
    eventsAtFrom st (sig :: rest) p
      = (((stepOut st sig).2.filter (fun e => e.1 == some p)).map (fun e => e.2))
        ++ eventsAtFrom (stepOut st sig).1 rest p := by
  simp [eventsAtFrom, runAnnotated]

theorem eventsAtFrom_all_input_of_emitted :
    ∀ (sigs : List RawSignal) (st : StreamState) (p : Nat),
      natToString p ∈ st.emittedToolCalls →
      ∀ e ∈ eventsAtFrom st sigs p, e.isInput = true := by
  intro sigs
  induction sigs with
  | nil => intro st p _ e he; simp [eventsAtFrom_nil] at he
  | cons sig rest ih =>
    intro st p hp e he
    rw [eventsAtFrom_cons] at he
    rcases sig with d | tcs | ⟨name, index, delta⟩
    · rw [stepOut_contentDelta] at he
      simp at he
      exact ih st p hp e he
    · rw [stepOut_chunk] at he
      simp at he
      refine ih (chunkStep st tcs) p ?_ e he
      rw [show (chunkStep st tcs).emittedToolCalls = st.emittedToolCalls from
        (chunkGo_emitted_auto tcs st 0).1]
      exact hp
    · by_cases hq : resolveIndex st index = p
      · have hmem : natToString (resolveIndex st index) ∈ st.emittedToolCalls := by
          rw [hq]; exact hp
        rw [stepOut_argDelta_old st name index delta hmem] at he
        simp [hq] at he
        rcases he with he | he
        · subst he; rfl
        · exact ih st p hp e he
      · have hps : (some (resolveIndex st index) == some p) = false := by
          simp [hq]
        by_cases hmem : natToString (resolveIndex st index) ∈ st.emittedToolCalls
        · rw [stepOut_argDelta_old st name index delta hmem] at he
          simp [hps] at he
          exact ih st p hp e he
        · rw [stepOut_argDelta_new st name index delta hmem] at he
          simp [hps] at he
          refine ih _ p ?_ e he
          exact List.mem_cons_of_mem _ hp

theorem eventsAtFrom_shape_of_not_emitted :
    ∀ (sigs : List RawSignal) (st : StreamState) (p : Nat),
      natToString p ∉ st.emittedToolCalls →
      fragmentsAtFrom st sigs p ≠ [] →
      ∃ id n rest2, eventsAtFrom st sigs p = ModelEvent.tool_use id n :: rest2
        ∧ ∀ e ∈ rest2, e.isInput = true := by
  intro sigs
  induction sigs with
  | nil => intro st p _ hfr; exact absurd rfl hfr
  | cons sig rest ih =>
    intro st p hp hfr
    rw [eventsAtFrom_cons]
    rcases sig with d | tcs | ⟨name, index, delta⟩
    · rw [stepOut_contentDelta]
      simp only [List.filter, List.map, List.nil_append]
      exact ih st p hp (by simpa [fragmentsAtFrom, fragSeq, stepOut_contentDelta] using hfr)
    · rw [stepOut_chunk]
      simp only [List.filter_nil, List.map_nil, List.nil_append]
      refine ih (chunkStep st tcs) p ?_ ?_
      · rw [show (chunkStep st tcs).emittedToolCalls = st.emittedToolCalls from
          (chunkGo_emitted_auto tcs st 0).1]
        exact hp
      · simpa [fragmentsAtFrom, fragSeq, stepOut_chunk] using hfr
    · by_cases hq : resolveIndex st index = p
      · have hmem : natToString (resolveIndex st index) ∉ st.emittedToolCalls := by
          rw [hq]; exact hp
        rw [stepOut_argDelta_new st name index delta hmem]
        refine ⟨resolveId st (resolveIndex st index) name, name,
          ModelEvent.tool_use_input (resolveId st (resolveIndex st index) name) name delta
            :: eventsAtFrom
                { st with
                    emittedToolCalls :=
                      natToString (resolveIndex st index) :: st.emittedToolCalls
                    nextAutoIndex := resolveIndex st index + 1 } rest p, ?_, ?_⟩
        · simp [hq]
        · intro e he
          rcases List.mem_cons.mp he with he | he
          · rw [he]; rfl
          · refine eventsAtFrom_all_input_of_emitted rest _ p ?_ e he
            rw [hq]
            exact List.mem_cons_self _ _
      · have hps : (some (resolveIndex st index) == some p) = false := by
          simp [hq]
        have hfr2 : fragmentsAtFrom (stepOut st (RawSignal.argDelta name index delta)).1 rest p
            ≠ [] := by
          intro hcon
          apply hfr
          simp [fragmentsAtFrom, fragSeq] at hcon ⊢
          exact ⟨hq, hcon⟩
        by_cases hmem : natToString (resolveIndex st index) ∈ st.emittedToolCalls
        · rw [stepOut_argDelta_old st name index delta hmem]
          simp only [List.filter, hps, List.map, List.nil_append]
          rw [stepOut_argDelta_old st name index delta hmem] at hfr2
          exact ih st p hp hfr2
        · rw [stepOut_argDelta_new st name index delta hmem]
          simp only [List.filter, hps, List.map, List.nil_append]
          rw [stepOut_argDelta_new st name index delta hmem] at hfr2
          refine ih _ p ?_ hfr2
          intro hcon
          rcases List.mem_cons.mp hcon with hcon | hcon
          · exact hq (natToString_injective hcon.symm)
          · exact hp hcon

theorem resolveId_eq_resolveWith (st : StreamState) (p : Nat) (n : String)
    (I N : Option String)
    (hI : List.lookup p st.toolCallIds = I) (hN : List.lookup n st.toolCallIdsByName = N) :
    resolveId st p n = resolveWith I N p := by
  cases I <;> cases N <;> simp [resolveId, resolveWith, hI, hN]

theorem inputEvents_characterization :
    ∀ (sigs : List RawSignal) (st : StreamState) (p : Nat) (n : String) (I N : Option String),
      (∀ f ∈ fragmentsAtFrom st sigs p, f.1 = n) →
      (∀ l ∈ lookupsAtFrom st p n sigs, l = (I, N)) →
      ((eventsAtFrom st sigs p).filter ModelEvent.isInput)
        = (fragmentsAtFrom st sigs p).map
            (fun f => ModelEvent.tool_use_input (resolveWith I N p) n f.2) := by
  intro sigs
  induction sigs with
  | nil => intro st p n I N _ _; rfl
  | cons sig rest ih =>
    intro st p n I N hname hstable
    rcases sig with d | tcs | ⟨nm, index, delta⟩
    · rw [eventsAtFrom_cons, stepOut_contentDelta]
      have hfr : fragmentsAtFrom st (RawSignal.contentDelta d :: rest) p
          = fragmentsAtFrom st rest p := by
        simp [fragmentsAtFrom, fragSeq, stepOut_contentDelta]
      have hlk : lookupsAtFrom st p n (RawSignal.contentDelta d :: rest)
          = lookupsAtFrom st p n rest := by
        simp [lookupsAtFrom, stepOut_contentDelta]
      rw [hfr] at hname ⊢
      rw [hlk] at hstable
      simp only [List.filter, List.map, List.nil_append]
      exact ih st p n I N hname hstable
    · rw [eventsAtFrom_cons, stepOut_chunk]
      have hfr : fragmentsAtFrom st (RawSignal.chunk tcs :: rest) p
          = fragmentsAtFrom (chunkStep st tcs) rest p := by
        simp [fragmentsAtFrom, fragSeq, stepOut_chunk]
      have hlk : lookupsAtFrom st p n (RawSignal.chunk tcs :: rest)
          = lookupsAtFrom (chunkStep st tcs) p n rest := by
        simp [lookupsAtFrom, stepOut_chunk]
      rw [hfr] at hname ⊢
      rw [hlk] at hstable
      simp only [List.filter_nil, List.map_nil, List.nil_append]
      exact ih (chunkStep st tcs) p n I N hname hstable
    · by_cases hq : resolveIndex st index = p
      · have hfr : fragmentsAtFrom st (RawSignal.argDelta nm index delta :: rest) p
            = (nm, delta)
              :: fragmentsAtFrom (stepOut st (RawSignal.argDelta nm index delta)).1 rest p := by
          simp [fragmentsAtFrom, fragSeq, List.filter_cons, hq]
        have hlk : lookupsAtFrom st p n (RawSignal.argDelta nm index delta :: rest)
            = (List.lookup p st.toolCallIds, List.lookup n st.toolCallIdsByName)
              :: lookupsAtFrom (stepOut st (RawSignal.argDelta nm index delta)).1 p n rest := by
          simp [lookupsAtFrom, hq]
        have hn : nm = n := by
          have := hname (nm, delta) (by rw [hfr]; exact List.mem_cons_self _ _)
          simpa using this
        subst hn
        have hIN : List.lookup p st.toolCallIds = I
            ∧ List.lookup nm st.toolCallIdsByName = N := by
          have := hstable _ (by rw [hlk]; exact List.mem_cons_self _ _)
          exact ⟨congrArg Prod.fst this, congrArg Prod.snd this⟩
        have hid : resolveId st p nm = resolveWith I N p :=
          resolveId_eq_resolveWith st p nm I N hIN.1 hIN.2
        have hname2 : ∀ f ∈ fragmentsAtFrom
            (stepOut st (RawSignal.argDelta nm index delta)).1 rest p, f.1 = nm := by
          intro f hf
          exact hname f (by rw [hfr]; exact List.mem_cons_of_mem _ hf)
        have hstable2 : ∀ l ∈ lookupsAtFrom
            (stepOut st (RawSignal.argDelta nm index delta)).1 p nm rest, l = (I, N) := by
          intro l hl
          exact hstable l (by rw [hlk]; exact List.mem_cons_of_mem _ hl)
        rw [eventsAtFrom_cons, hfr]
        by_cases hmem : natToString (resolveIndex st index) ∈ st.emittedToolCalls
        · rw [stepOut_argDelta_old st nm index delta hmem]
          rw [stepOut_argDelta_old st nm index delta hmem] at hname2 hstable2
          have htl := ih st p nm I N hname2 hstable2
          simp [hq, hid, htl, ModelEvent.isInput]
        · rw [stepOut_argDelta_new st nm index delta hmem]
          rw [stepOut_argDelta_new st nm index delta hmem] at hname2 hstable2
          have htl := ih _ p nm I N hname2 hstable2
          simp only [hq] at htl
          simp [hq, hid, ModelEvent.isInput]
          exact htl
      · have hps : ((some (resolveIndex st index) : Option Nat) == some p) = false := by
          simp [hq]
        have hfr : fragmentsAtFrom st (RawSignal.argDelta nm index delta :: rest) p
            = fragmentsAtFrom (stepOut st (RawSignal.argDelta nm index delta)).1 rest p := by
          simp [fragmentsAtFrom, fragSeq, List.filter_cons, hq]
        have hlk : lookupsAtFrom st p n (RawSignal.argDelta nm index delta :: rest)
            = lookupsAtFrom (stepOut st (RawSignal.argDelta nm index delta)).1 p n rest := by
          simp [lookupsAtFrom, hq]
        rw [hfr] at hname ⊢
        rw [hlk] at hstable
        rw [eventsAtFrom_cons]
        by_cases hmem : natToString (resolveIndex st index) ∈ st.emittedToolCalls
        · rw [stepOut_argDelta_old st nm index delta hmem]
          simp only [List.filter_cons, hps, List.filter_nil, List.map, List.nil_append]
          rw [stepOut_argDelta_old st nm index delta hmem] at hname hstable
          exact ih st p n I N hname hstable
        · rw [stepOut_argDelta_new st nm index delta hmem]
          simp only [List.filter_cons, hps, List.filter_nil, List.map, List.nil_append]
          rw [stepOut_argDelta_new st nm index delta hmem] at hname hstable
          exact ih _ p n I N hname hstable

theorem fallback_run_no_more :
    ∀ (sigs : List RawSignal) (st : StreamState),
      (∀ sig ∈ sigs, sig.omitsIdentity = true) →
      (∀ s ∈ st.emittedToolCalls, ∃ m, m < st.nextAutoIndex ∧ s = natToString m) →
      ∀ p, p < st.nextAutoIndex → eventsAtFrom st sigs p = [] := by
  intro sigs
  induction sigs with
  | nil => intro st _ _ p _; rfl
  | cons sig rest ih =>
    intro st hids hinv p hp
    have hrest : ∀ sig2 ∈ rest, sig2.omitsIdentity = true :=
      fun s hs => hids s (List.mem_cons_of_mem sig hs)
    rw [eventsAtFrom_cons]
    rcases sig with d | tcs | ⟨name, index, delta⟩
    · rw [stepOut_contentDelta]
      simp only [List.filter, List.map, List.nil_append]
      exact ih st hrest hinv p hp
    · have hnoid : ∀ tc ∈ tcs, tc.id.isNone = true := by
        have := hids (RawSignal.chunk tcs) (List.mem_cons_self _ _)
        simpa [RawSignal.omitsIdentity] using this
      rw [stepOut_chunk]
      simp only [List.filter_nil, List.map_nil, List.nil_append]
      rw [show chunkStep st tcs = st from chunkGo_maps_of_no_id tcs st 0 hnoid]
      exact ih st hrest hinv p hp
    · have hidx : index = none := by
        have := hids (RawSignal.argDelta name index delta) (List.mem_cons_self _ _)
        simpa [RawSignal.omitsIdentity, Option.isNone_iff_eq_none] using this
      subst hidx
      have hres : resolveIndex st none = st.nextAutoIndex := rfl
      have hmem : natToString (resolveIndex st none) ∉ st.emittedToolCalls := by
        rw [hres]
        intro hcon
        obtain ⟨m, hm, heq⟩ := hinv _ hcon
        exact absurd (natToString_injective heq).symm (by omega)
      rw [stepOut_argDelta_new st name none delta hmem]
      have hps : ((some (resolveIndex st none) : Option Nat) == some p) = false := by
        rw [hres]
        simp
        omega
      simp only [List.filter_cons, hps, List.filter_nil, List.map_nil, List.nil_append]
      refine ih _ ?_ ?_ p ?_
      · exact hrest
      · intro s hs
        rcases List.mem_cons.mp hs with hs | hs
        · refine ⟨resolveIndex st none, ?_, by rw [hs, hres]⟩
          show resolveIndex st none < resolveIndex st none + 1
          omega
        · obtain ⟨m, hm, heq⟩ := hinv s hs
          refine ⟨m, ?_, heq⟩
          show m < resolveIndex st none + 1
          rw [hres]; omega
      · show p < resolveIndex st none + 1
        rw [hres]; omega

theorem fallback_run_characterization :
    ∀ (sigs : List RawSignal) (st : StreamState),
      (∀ sig ∈ sigs, sig.omitsIdentity = true) →
      st.toolCallIds = [] → st.toolCallIdsByName = [] →
      (∀ s ∈ st.emittedToolCalls, ∃ m, m < st.nextAutoIndex ∧ s = natToString m) →
      ∀ pre n d post, argDeltasOf sigs = pre ++ (n, d) :: post →
        eventsAtFrom st sigs (st.nextAutoIndex + pre.length)
          = [ModelEvent.tool_use (fallbackId (st.nextAutoIndex + pre.length)) n,
             ModelEvent.tool_use_input (fallbackId (st.nextAutoIndex + pre.length)) n d] := by
  intro sigs
  induction sigs with
  | nil =>
    intro st _ _ _ _ pre n d post habs
    exact absurd habs (by simp [argDeltasOf])
  | cons sig rest ih =>
    intro st hids hci hcn hinv pre n d post hsplit
    have hrest : ∀ sig2 ∈ rest, sig2.omitsIdentity = true :=
      fun s hs => hids s (List.mem_cons_of_mem sig hs)
    rw [eventsAtFrom_cons]
    rcases sig with dd | tcs | ⟨name, index, delta⟩
    · rw [stepOut_contentDelta]
      simp only [List.filter, List.map, List.nil_append]
      exact ih st hrest hci hcn hinv pre n d post (by simpa [argDeltasOf] using hsplit)
    · have hnoid : ∀ tc ∈ tcs, tc.id.isNone = true := by
        have := hids (RawSignal.chunk tcs) (List.mem_cons_self _ _)
        simpa [RawSignal.omitsIdentity] using this
      rw [stepOut_chunk]
      simp only [List.filter_nil, List.map_nil, List.nil_append]
      rw [show chunkStep st tcs = st from chunkGo_maps_of_no_id tcs st 0 hnoid]
      exact ih st hrest hci hcn hinv pre n d post (by simpa [argDeltasOf] using hsplit)
    · have hidx : index = none := by
        have := hids (RawSignal.argDelta name index delta) (List.mem_cons_self _ _)
        simpa [RawSignal.omitsIdentity, Option.isNone_iff_eq_none] using this
      subst hidx
      have hres : resolveIndex st none = st.nextAutoIndex := rfl
      have hmem : natToString (resolveIndex st none) ∉ st.emittedToolCalls := by
        rw [hres]
        intro hcon
        obtain ⟨m, hm, heq⟩ := hinv _ hcon
        exact absurd (natToString_injective heq).symm (by omega)
      have hrid : resolveId st (resolveIndex st none) name
          = fallbackId st.nextAutoIndex := by
        rw [hres]
        simp [resolveId, hci, hcn]
      rw [stepOut_argDelta_new st name none delta hmem]
      have hinv2 : ∀ s ∈ natToString (resolveIndex st none) :: st.emittedToolCalls,
          ∃ m, m < resolveIndex st none + 1 ∧ s = natToString m := by
        intro s hs
        rcases List.mem_cons.mp hs with hs | hs
        · exact ⟨resolveIndex st none, by omega, hs⟩
        · obtain ⟨m, hm, heq⟩ := hinv s hs
          exact ⟨m, by rw [hres]; omega, heq⟩
      have hdd : argDeltasOf (RawSignal.argDelta name none delta :: rest)
          = (name, delta) :: argDeltasOf rest := rfl
      rw [hdd] at hsplit
      cases pre with
      | nil =>
        simp only [List.nil_append, List.cons.injEq] at hsplit
        have hnone := fallback_run_no_more rest
          { st with
              emittedToolCalls := natToString (resolveIndex st none) :: st.emittedToolCalls
              nextAutoIndex := resolveIndex st none + 1 }
          hrest hinv2 (st.nextAutoIndex + 0) (by
            show st.nextAutoIndex + 0 < resolveIndex st none + 1
            rw [hres]; omega)
        simp only [List.length_nil, Nat.add_zero] at *
        rw [hnone]
        have hpp : ((some (resolveIndex st none) : Option Nat) == some st.nextAutoIndex)
            = true := by
          rw [hres]; simp
        simp only [List.filter_cons, hpp, List.filter_nil, List.map, List.append_nil]
        rw [hrid]
        have hn2 : name = n := by
          have := congrArg Prod.fst hsplit.1
          simpa using this
        have hd2 : delta = d := by
          have := congrArg Prod.snd hsplit.1
          simpa using this
        rw [hn2, hd2]
      | cons q pre2 =>
        simp only [List.cons_append, List.cons.injEq] at hsplit
        have htail := ih
          { st with
              emittedToolCalls := natToString (resolveIndex st none) :: st.emittedToolCalls
              nextAutoIndex := resolveIndex st none + 1 }
          hrest hci hcn hinv2 pre2 n d post hsplit.2
        have harith : resolveIndex st none + 1 + pre2.length
            = st.nextAutoIndex + (q :: pre2).length := by
          rw [hres]
          simp [List.length_cons]
          omega
        rw [harith] at htail
        have hpp : ((some (resolveIndex st none) : Option Nat)
            == some (st.nextAutoIndex + (q :: pre2).length)) = false := by
          rw [hres]
          simp [List.length_cons]
        simp only [List.filter_cons, hpp, List.filter_nil, List.map_nil, List.nil_append]
        exact htail

theorem formatUserContent_skip_missing
    (cacheMap : FileAttachmentCacheMap) (fileId mimeType : String)
    (hmiss : cacheMap fileId = none) :
    ∀ (before : List ContentBlock) (after : List ContentBlock) (att tri : Nat),
      formatUserContent cacheMap att tri
          (before ++ ContentBlock.file_attachment fileId mimeType :: after)
        = formatUserContent cacheMap att tri (before ++ after) := by
  intro before
  induction before with
  | nil =>
    intro after att tri
    simp only [List.nil_append, formatUserContent, hmiss]
  | cons c before2 ih =>
    intro after att tri
    cases c with
    | text t =>
      simp only [List.cons_append, formatUserContent, List.append_eq]
      rw [ih]
    | image src =>
      simp only [List.cons_append, formatUserContent, List.append_eq]
      rw [ih]
    | tool_use tid nm input =>
      simp only [List.cons_append, formatUserContent, List.append_eq]
      rw [ih]
    | tool_result tid blocks =>
      simp only [List.cons_append, formatUserContent, List.append_eq]
      rw [ih]
    | file_attachment fid2 mt2 =>
      simp only [List.cons_append, formatUserContent, List.append_eq]
      cases hc : cacheMap fid2 with
      | none => exact ih after att tri
      | some entry =>
        dsimp only
        rw [ih]

theorem formatUserContent_tool_shape :
    ∀ (content : List ContentBlock) (cacheMap : FileAttachmentCacheMap) (att tri : Nat),
      ∀ m ∈ (formatUserContent cacheMap att tri content).1,
        ∃ c tid, m = OaiMessage.tool c tid := by
  intro content
  induction content with
  | nil => intro cacheMap att tri m hm; simp [formatUserContent] at hm
  | cons c rest ih =>
    intro cacheMap att tri m hm
    cases c with
    | text t =>
      simp only [formatUserContent] at hm
      exact ih cacheMap att tri m hm
    | image src =>
      simp only [formatUserContent] at hm
      exact ih cacheMap att tri m hm
    | tool_use tid nm input =>
      simp only [formatUserContent] at hm
      exact ih cacheMap att tri m hm
    | tool_result tid blocks =>
      simp only [formatUserContent] at hm
      rcases List.mem_cons.mp hm with hm | hm
      · exact ⟨_, _, hm⟩
      · exact ih cacheMap att _ m hm
    | file_attachment fid mt =>
      simp only [formatUserContent] at hm
      cases hc : cacheMap fid with
      | none =>
        rw [hc] at hm
        exact ih cacheMap att tri m hm
      | some entry =>
        rw [hc] at hm
        dsimp only at hm
        by_cases hsupp : isSupportedImageType mt = true
        · rw [if_pos hsupp] at hm
          exact ih cacheMap _ tri m hm
        · rw [if_neg hsupp] at hm
          exact ih cacheMap _ tri m hm

theorem mapM_except_error {α β : Type} (f : α → Except String β) :
    ∀ (l : List α) (x : α), x ∈ l → (∃ e, f x = Except.error e) →
      ∃ e2, l.mapM f = Except.error e2 := by
  intro l
  induction l with
  | nil => intro x hx _; simp at hx
  | cons y ys ih =>
    intro x hx hex
    cases hf : f y with
    | error e => exact ⟨e, by rw [List.mapM_cons, hf]; rfl⟩
    | ok b =>
      rcases List.mem_cons.mp hx with hx | hx
      · obtain ⟨e, he⟩ := hex
        rw [hx] at he
        rw [he] at hf
        exact absurd hf (by simp)
      · obtain ⟨e2, he2⟩ := ih x hx hex
        refine ⟨e2, ?_⟩
        rw [List.mapM_cons, hf]
        show (Except.ok b >>= fun b2 => ys.mapM f >>= fun bs => pure (b2 :: bs))
          = Except.error e2
        rw [show (Except.ok b >>= fun b2 => ys.mapM f >>= fun bs => pure (b2 :: bs))
            = (ys.mapM f >>= fun bs => pure (b :: bs)) from rfl, he2]
        rfl

/-- Claim C1 (counterexample): it is not the case that all `tool_use_input`
events emitted for fragments resolving to one position carry the same
`toolUseId`: on `c1LateIdSigs`, position 0's two input events carry
`fallback_0` and `call_1`. -/
theorem c1_identity_stability_counterexample :
    ¬ (∀ e ∈ inputEventsAt c1LateIdSigs 0, ∀ e2 ∈ inputEventsAt c1LateIdSigs 0,
        e.evId = e2.evId) := by decide

/-- Claim C1 (amended): every `tool_use_input` event emitted for a fragment
resolving to position `p` carries the id resolved by the fallback chain from
the maps at that fragment's arrival and the fragment's own reported name;
hence, provided all fragments resolving to `p` report one name `n` and the
recorded id for position `p` and for name `n` are unchanged across those
fragments' arrivals, all such events carry one identical `toolUseId` and
`toolName`, and concatenating their `partialInput` strings in emission order
yields exactly the call's complete JSON-encoded arguments (the concatenation
of its fragments' raw argument deltas). -/
theorem c1_identity_stability_amended (sigs : List RawSignal) (p : Nat) (n : String)
    (I N : Option String)
    (hname : ∀ f ∈ fragmentsAt sigs p, f.1 = n)
    (hstable : ∀ l ∈ lookupsAt sigs p n, l = (I, N)) :
    (∀ e ∈ inputEventsAt sigs p, e.evId = resolveWith I N p ∧ e.evName = n) ∧
    String.join ((inputEventsAt sigs p).map ModelEvent.evText)
      = completeArguments sigs p := by
  have hchar := inputEvents_characterization sigs initState p n I N hname hstable
  constructor
  · intro e he
    rw [inputEventsAt, eventsAt, hchar] at he
    obtain ⟨f, _, hfe⟩ := List.mem_map.mp he
    rw [← hfe]
    exact ⟨rfl, rfl⟩
  · rw [inputEventsAt, eventsAt, hchar, completeArguments, List.map_map]
    rfl

/-- The hypotheses and conclusion of the amended C1 hold on a concrete
stream whose id is recorded before any fragment arrives. -/
theorem c1_identity_stability_amended_witness :
    (∀ f ∈ fragmentsAt
        [RawSignal.chunk [⟨some 0, some "call_9", some "g"⟩],
         RawSignal.argDelta "g" (some 0) "[1",
         RawSignal.argDelta "g" (some 0) ",2]"] 0, f.1 = "g") ∧
    (∀ l ∈ lookupsAt
        [RawSignal.chunk [⟨some 0, some "call_9", some "g"⟩],
         RawSignal.argDelta "g" (some 0) "[1",
         RawSignal.argDelta "g" (some 0) ",2]"] 0 "g",
      l = (some "call_9", some "call_9")) ∧
    ((∀ e ∈ inputEventsAt
        [RawSignal.chunk [⟨some 0, some "call_9", some "g"⟩],
         RawSignal.argDelta "g" (some 0) "[1",
         RawSignal.argDelta "g" (some 0) ",2]"] 0,
        e.evId = resolveWith (some "call_9") (some "call_9") 0 ∧ e.evName = "g") ∧
      String.join ((inputEventsAt
        [RawSignal.chunk [⟨some 0, some "call_9", some "g"⟩],
         RawSignal.argDelta "g" (some 0) "[1",
         RawSignal.argDelta "g" (some 0) ",2]"] 0).map ModelEvent.evText)
        = completeArguments
            [RawSignal.chunk [⟨some 0, some "call_9", some "g"⟩],
             RawSignal.argDelta "g" (some 0) "[1",
             RawSignal.argDelta "g" (some 0) ",2]"] 0) :=
  ⟨by decide, by decide,
   c1_identity_stability_amended _ 0 "g" (some "call_9") (some "call_9")
     (by decide) (by decide)⟩

/-- Claim C2: for every stream and every resolved tool-call position that
some argument-delta fragment resolves to, the events emitted for that
position are exactly one `tool_use` start event followed only by
`tool_use_input` events: the start is unique for the position and precedes
its first input event. -/
theorem c2_start_before_fragments (sigs : List RawSignal) (p : Nat)
    (h : fragmentsAt sigs p ≠ []) :
    ∃ id n rest2, eventsAt sigs p = ModelEvent.tool_use id n :: rest2
      ∧ ∀ e ∈ rest2, e.isInput = true ∧ e.isStart = false := by
  obtain ⟨id, n, rest2, heq, hinp⟩ :=
    eventsAtFrom_shape_of_not_emitted sigs initState p (by simp [initState]) h
  refine ⟨id, n, rest2, heq, fun e he => ?_⟩
  have hi := hinp e he
  refine ⟨hi, ?_⟩
  cases e <;> simp_all [ModelEvent.isInput, ModelEvent.isStart]

/-- C2 instantiated on a concrete stream. -/
theorem c2_start_before_fragments_witness :
    fragmentsAt [RawSignal.argDelta "f" (some 0) "[]"] 0 ≠ [] ∧
    (∃ id n rest2,
      eventsAt [RawSignal.argDelta "f" (some 0) "[]"] 0
        = ModelEvent.tool_use id n :: rest2
      ∧ ∀ e ∈ rest2, e.isInput = true ∧ e.isStart = false) :=
  ⟨by decide, c2_start_before_fragments [RawSignal.argDelta "f" (some 0) "[]"] 0 (by decide)⟩

/-- Claim C3: when every fragment omits both its index and its id, the j-th
argument-delta fragment (in arrival order) is treated as its own tool call at
position j: it emits a start and an input event carrying the synthesized id
`fallback_j` and exactly its own name and argument text, and the synthesized
fallback ids of distinct positions are distinct, so no fragment's argument
text is attributed to another call. -/
theorem c3_fallback_coverage (sigs : List RawSignal)
    (h : ∀ sig ∈ sigs, sig.omitsIdentity = true) :
    (∀ pre n d post, argDeltasOf sigs = pre ++ (n, d) :: post →
      eventsAt sigs pre.length
        = [ModelEvent.tool_use (fallbackId pre.length) n,
           ModelEvent.tool_use_input (fallbackId pre.length) n d]) ∧
    (∀ j k : Nat, j ≠ k → fallbackId j ≠ fallbackId k) := by
  constructor
  · intro pre n d post hsplit
    have hchar := fallback_run_characterization sigs initState h rfl rfl
      (by simp [initState]) pre n d post hsplit
    show eventsAtFrom initState sigs pre.length = _
    simpa [initState] using hchar
  · intro j k hjk hcon
    exact hjk (fallbackId_injective hcon)

/-- C3 instantiated on a concrete stream with two calls and an interleaved
text delta. -/
theorem c3_fallback_coverage_witness :
    (∀ sig ∈ [RawSignal.argDelta "a" none "12", RawSignal.contentDelta "x",
        RawSignal.argDelta "b" none "[]"], sig.omitsIdentity = true) ∧
    eventsAt [RawSignal.argDelta "a" none "12", RawSignal.contentDelta "x",
        RawSignal.argDelta "b" none "[]"] 0
      = [ModelEvent.tool_use (fallbackId 0) "a",
         ModelEvent.tool_use_input (fallbackId 0) "a" "12"] ∧
    eventsAt [RawSignal.argDelta "a" none "12", RawSignal.contentDelta "x",
        RawSignal.argDelta "b" none "[]"] 1
      = [ModelEvent.tool_use (fallbackId 1) "b",
         ModelEvent.tool_use_input (fallbackId 1) "b" "[]"] ∧
    fallbackId 0 ≠ fallbackId 1 := by
  refine ⟨by decide, ?_, ?_,
    (c3_fallback_coverage [RawSignal.argDelta "a" none "12", RawSignal.contentDelta "x",
      RawSignal.argDelta "b" none "[]"] (by decide)).2 0 1 (by decide)⟩
  · exact (c3_fallback_coverage [RawSignal.argDelta "a" none "12", RawSignal.contentDelta "x",
      RawSignal.argDelta "b" none "[]"] (by decide)).1 [] "a" "12" [("b", "[]")] (by decide)
  · exact (c3_fallback_coverage [RawSignal.argDelta "a" none "12", RawSignal.contentDelta "x",
      RawSignal.argDelta "b" none "[]"] (by decide)).1 [("a", "12")] "b" "[]" [] (by decide)

/-- Claim C4: formatting a user message whose content is one `tool_result`
block holding a text sub-block `"42"` and one supported-type image sub-block
yields exactly the tool-role message (content `"42"` plus the placeholder
`[See image 1 below]`, keyed by the tool_result's id) followed by the main
user message holding exactly the converted image block; and in general the
user-branch output is all derived tool-role messages followed by at most one
user-role message, which is omitted when its content is empty after
filtering. -/
theorem c4_tool_result_formatting :
    (∀ (tid : String) (src : ImageSource) (cacheMap : FileAttachmentCacheMap),
      isSupportedImageType src.mediaType = true →
      formatInputMessage
          ⟨Role.user, [ContentBlock.tool_result tid
            [ToolResultBlock.text "42", ToolResultBlock.image src]]⟩ cacheMap
        = [OaiMessage.tool ("42\n[See image 1 below]") tid,
           OaiMessage.user [mapImageBlockToOpenAI src]]) ∧
    (∀ (content : List ContentBlock) (cacheMap : FileAttachmentCacheMap),
      ∃ tms ums, formatInputMessage ⟨Role.user, content⟩ cacheMap = tms ++ ums
        ∧ (∀ m ∈ tms, ∃ c tcid, m = OaiMessage.tool c tcid)
        ∧ (∀ m ∈ ums, ∃ parts, m = OaiMessage.user parts ∧ parts ≠ [])
        ∧ ums.length ≤ 1) := by
  constructor
  · intro tid src cacheMap hsupp
    obtain ⟨u, hu⟩ : ∃ u, mapImageBlockToOpenAI src = OaiContentPart.image_url u "high" := by
      cases src with
      | base64 mt dt =>
        refine ⟨"data:" ++ mt ++ ";base64," ++ dt, ?_⟩
        simp only [ImageSource.mediaType] at hsupp
        simp only [mapImageBlockToOpenAI, ImageSource.mediaType]
        rw [if_pos hsupp]
      | url mt u2 =>
        refine ⟨u2, ?_⟩
        simp only [ImageSource.mediaType] at hsupp
        simp only [mapImageBlockToOpenAI, ImageSource.mediaType]
        rw [if_pos hsupp]
    simp only [formatInputMessage, formatUserContent, scanToolResultContent, hu]
    rfl
  · intro content cacheMap
    refine ⟨(formatUserContent cacheMap 0 0 content).1,
      if (formatUserContent cacheMap 0 0 content).2.length > 0
        then [OaiMessage.user (formatUserContent cacheMap 0 0 content).2] else [],
      rfl, formatUserContent_tool_shape content cacheMap 0 0, ?_, ?_⟩
    · intro m hm
      by_cases hlen : (formatUserContent cacheMap 0 0 content).2.length > 0
      · rw [if_pos hlen] at hm
        rcases List.mem_cons.mp hm with hm | hm
        · refine ⟨(formatUserContent cacheMap 0 0 content).2, hm, ?_⟩
          intro hnil
          rw [hnil] at hlen
          simp at hlen
        · simp at hm
      · rw [if_neg hlen] at hm
        simp at hm
    · by_cases hlen : (formatUserContent cacheMap 0 0 content).2.length > 0
      · rw [if_pos hlen]; simp
      · rw [if_neg hlen]; simp

/-- C4's scenario instantiated at a concrete supported image and cache. -/
theorem c4_tool_result_formatting_witness :
    isSupportedImageType (ImageSource.url "image/png" "https://x/a.png").mediaType = true ∧
    formatInputMessage
        ⟨Role.user, [ContentBlock.tool_result "toolu_1"
          [ToolResultBlock.text "42",
           ToolResultBlock.image (ImageSource.url "image/png" "https://x/a.png")]]⟩
        (fun _ => none)
      = [OaiMessage.tool ("42\n[See image 1 below]") "toolu_1",
         OaiMessage.user [OaiContentPart.image_url "https://x/a.png" "high"]] :=
  ⟨by decide,
   c4_tool_result_formatting.1 "toolu_1" (ImageSource.url "image/png" "https://x/a.png")
     (fun _ => none) (by decide)⟩

/-- Claim C7: a `file_attachment` block whose file id is absent from the
cache map contributes nothing to the formatted output, raises no error, and
leaves the mapping of every sibling content block (including the attachment
numbering of resolved attachments) unchanged relative to the same message
without that block. -/
theorem c7_attachment_degradation (cacheMap : FileAttachmentCacheMap)
    (fileId mimeType : String) (before after : List ContentBlock)
    (hmiss : cacheMap fileId = none) :
    formatInputMessage
        ⟨Role.user, before ++ ContentBlock.file_attachment fileId mimeType :: after⟩ cacheMap
      = formatInputMessage ⟨Role.user, before ++ after⟩ cacheMap := by
  simp only [formatInputMessage]
  rw [formatUserContent_skip_missing cacheMap fileId mimeType hmiss before after 0 0]

/-- C7 instantiated: dropping an uncached attachment placed before a cached
one leaves the cached attachment's numbering and output unchanged. -/
theorem c7_attachment_degradation_witness :
    (fun fid => if fid = "cached" then some (CacheEntry.mk "/cache/a.png" "https://signed/a")
      else none : FileAttachmentCacheMap) "missing" = none ∧
    formatInputMessage
        ⟨Role.user, [ContentBlock.text "hi",
          ContentBlock.file_attachment "missing" "application/pdf",
          ContentBlock.file_attachment "cached" "image/png"]⟩
        (fun fid => if fid = "cached" then some (CacheEntry.mk "/cache/a.png" "https://signed/a")
          else none)
      = formatInputMessage
          ⟨Role.user, [ContentBlock.text "hi",
            ContentBlock.file_attachment "cached" "image/png"]⟩
          (fun fid => if fid = "cached" then some (CacheEntry.mk "/cache/a.png" "https://signed/a")
            else none) :=
  ⟨rfl,
   c7_attachment_degradation _ "missing" "application/pdf"
     [ContentBlock.text "hi"] [ContentBlock.file_attachment "cached" "image/png"] rfl⟩

/-- Claim C5: whenever mapping the provider's terminal completion succeeds,
the resulting `FinalMessage`'s `stop_reason` is `"tool_use"` exactly when the
completion's message contains at least one tool call, and `"end_turn"`
otherwise. -/
theorem c5_stop_reason (message : OaiCompletionMessage) (usage : Option CompletionUsage)
    (fm : FinalMessage) (h : mapOaiMessageToMessage message usage = Except.ok fm) :
    fm.stop_reason
      = if (message.tool_calls.getD []).isEmpty then "end_turn" else "tool_use" := by
  unfold mapOaiMessageToMessage at h
  cases hmm : ((message.tool_calls.getD []).filter OaiOutToolCall.isFunctionKind).mapM
      parseFunctionToolCall with
  | error e => rw [hmm] at h; exact absurd h (by simp)
  | ok toolUses =>
    rw [hmm] at h
    have hfm := Except.ok.inj h
    rw [← hfm]
    cases htc : message.tool_calls with
    | none => simp [htc]
    | some l =>
      cases l with
      | nil => simp [htc]
      | cons a l2 => simp [htc]

/-- C5 instantiated at a completion with one function tool call. -/
theorem c5_stop_reason_witness :
    (FinalMessage.mk "assistant"
        [ContentBlock.text "hi", ContentBlock.tool_use "call_a" "f" (Json.arr [])]
        "tool_use" none).stop_reason
      = if ((OaiCompletionMessage.mk "assistant" (some "hi")
            (some [OaiOutToolCall.function "call_a" "f" "[]"])).tool_calls.getD []).isEmpty
        then "end_turn" else "tool_use" :=
  c5_stop_reason
    (OaiCompletionMessage.mk "assistant" (some "hi")
      (some [OaiOutToolCall.function "call_a" "f" "[]"]))
    none
    (FinalMessage.mk "assistant"
      [ContentBlock.text "hi", ContentBlock.tool_use "call_a" "f" (Json.arr [])]
      "tool_use" none)
    rfl

/-- Claim C8: if any function-kind tool call of the terminal completion
carries an argument string that is not valid JSON, mapping the completion
fails with a reported error: no `FinalMessage` is produced. -/
theorem c8_malformed_arguments (message : OaiCompletionMessage)
    (usage : Option CompletionUsage) (id name args : String)
    (h1 : OaiOutToolCall.function id name args ∈ message.tool_calls.getD [])
    (h2 : parseJson args = none) :
    ∃ e, mapOaiMessageToMessage message usage = Except.error e := by
  have hmem2 : OaiOutToolCall.function id name args
      ∈ (message.tool_calls.getD []).filter OaiOutToolCall.isFunctionKind :=
    List.mem_filter.mpr ⟨h1, rfl⟩
  obtain ⟨e2, he2⟩ := mapM_except_error parseFunctionToolCall _ _ hmem2
    ⟨"SyntaxError: failed to parse tool call arguments as JSON: " ++ args,
     by simp [parseFunctionToolCall, h2]⟩
  refine ⟨e2, ?_⟩
  unfold mapOaiMessageToMessage
  rw [he2]

/-- C8 instantiated at a completion whose tool call carries the malformed
argument string `"["`. -/
theorem c8_malformed_arguments_witness :
    OaiOutToolCall.function "call_1" "f" "["
      ∈ ((OaiCompletionMessage.mk "assistant" none
          (some [OaiOutToolCall.function "call_1" "f" "["])).tool_calls.getD []) ∧
    parseJson "[" = none ∧
    (∃ e, mapOaiMessageToMessage
        (OaiCompletionMessage.mk "assistant" none
          (some [OaiOutToolCall.function "call_1" "f" "["])) none
      = Except.error e) :=
  ⟨by decide, rfl,
   c8_malformed_arguments
     (OaiCompletionMessage.mk "assistant" none
       (some [OaiOutToolCall.function "call_1" "f" "["]))
     none "call_1" "f" "[" (by decide) rfl⟩

/-- Claim C9: the mapped `TokenUsage` copies the prompt and completion token
totals, its `cacheRead` and `thinking` fields are `none` exactly when the
corresponding optional detail field is absent from the usage record, and an
explicitly reported zero maps to `some 0`, not to `none`. -/
theorem c9_usage_mapping (usage : CompletionUsage) :
    (mapOaiUsage usage).input.total = usage.prompt_tokens ∧
    (mapOaiUsage usage).output.total = usage.completion_tokens ∧
    ((mapOaiUsage usage).input.cacheRead = none
      ↔ usage.prompt_tokens_details.bind (fun d => d.cached_tokens) = none) ∧
    ((mapOaiUsage usage).output.thinking = none
      ↔ usage.completion_tokens_details.bind (fun d => d.reasoning_tokens) = none) ∧
    (∀ d, usage.prompt_tokens_details = some d → d.cached_tokens = some 0 →
      (mapOaiUsage usage).input.cacheRead = some 0) ∧
    (∀ d, usage.completion_tokens_details = some d → d.reasoning_tokens = some 0 →
      (mapOaiUsage usage).output.thinking = some 0) := by
  refine ⟨rfl, rfl, Iff.rfl, Iff.rfl, ?_, ?_⟩ <;>
    (intro d hd hz; simp [mapOaiUsage, hd, hz])

/-- C9 instantiated: an explicitly reported zero cache-read count maps to
`some 0` while an absent reasoning detail maps to `none`. -/
theorem c9_usage_mapping_witness :
    (mapOaiUsage (CompletionUsage.mk 100 50 150 (some (PromptTokensDetails.mk (some 0)))
        none)).input.cacheRead = some 0 ∧
    (mapOaiUsage (CompletionUsage.mk 100 50 150 (some (PromptTokensDetails.mk (some 0)))
        none)).output.thinking = none :=
  ⟨(c9_usage_mapping
      (CompletionUsage.mk 100 50 150 (some (PromptTokensDetails.mk (some 0))) none)).2.2.2.2.1
      (PromptTokensDetails.mk (some 0)) rfl rfl,
   ((c9_usage_mapping
      (CompletionUsage.mk 100 50 150 (some (PromptTokensDetails.mk (some 0))) none)).2.2.2.1).mpr
      rfl⟩

/-- Claim C10: when the terminal completion's tool calls are all of a
non-function kind, mapping succeeds with `stop_reason` `"tool_use"` (the
reason is computed from the raw tool-call count before the kind filter) while
the content contains no `tool_use` block at all, only the text block. -/
theorem c10_stop_reason_unsupported_kinds (message : OaiCompletionMessage)
    (usage : Option CompletionUsage) (tcs : List OaiOutToolCall)
    (h1 : message.tool_calls = some tcs) (h2 : tcs ≠ [])
    (h3 : ∀ tc ∈ tcs, tc.isFunctionKind = false) :
    mapOaiMessageToMessage message usage
      = Except.ok
          { role := message.role
            content := [ContentBlock.text (message.content.getD "")]
            stop_reason := "tool_use"
            usage := usage.map mapOaiUsage } := by
  have hfilter : (message.tool_calls.getD []).filter OaiOutToolCall.isFunctionKind = [] := by
    rw [h1]
    simp only [Option.getD_some]
    refine List.filter_eq_nil_iff.mpr ?_
    intro a ha
    simp [h3 a ha]
  unfold mapOaiMessageToMessage
  rw [hfilter]
  cases tcs with
  | nil => exact absurd rfl h2
  | cons a l =>
    rw [h1]
    rfl

/-- C10 instantiated at a completion with one non-function tool call. -/
theorem c10_stop_reason_unsupported_kinds_witness :
    mapOaiMessageToMessage
        (OaiCompletionMessage.mk "assistant" (some "out")
          (some [OaiOutToolCall.other "call_x"])) none
      = Except.ok
          { role := "assistant"
            content := [ContentBlock.text "out"]
            stop_reason := "tool_use"
            usage := none } :=
  c10_stop_reason_unsupported_kinds
    (OaiCompletionMessage.mk "assistant" (some "out") (some [OaiOutToolCall.other "call_x"]))
    none [OaiOutToolCall.other "call_x"] rfl (by decide) (by decide)

/-- Claim C6: formatting an assistant message holding two `tool_use` blocks
yields the wire message with their ids, names, and `JSON.stringify`-ed
inputs, and mapping back a completion whose two function-kind tool calls
carry exactly those ids, names, and argument strings reproduces the same
tool names and structurally equal parsed inputs (`JSON.parse` of
`JSON.stringify` of each input is the original input). -/
theorem c6_round_trip (id1 n1 : String) (j1 : Json) (id2 n2 : String) (j2 : Json)
    (content : Option String) (usage : Option CompletionUsage)
    (cacheMap : FileAttachmentCacheMap) :
    formatInputMessage
        ⟨Role.assistant,
          [ContentBlock.tool_use id1 n1 j1, ContentBlock.tool_use id2 n2 j2]⟩ cacheMap
      = [OaiMessage.assistant []
          (some [OaiToolCall.mk id1 n1 (stringifyJson j1),
                 OaiToolCall.mk id2 n2 (stringifyJson j2)])] ∧
    mapOaiMessageToMessage
        (OaiCompletionMessage.mk "assistant" content
          (some [OaiOutToolCall.function id1 n1 (stringifyJson j1),
                 OaiOutToolCall.function id2 n2 (stringifyJson j2)])) usage
      = Except.ok
          { role := "assistant"
            content := [ContentBlock.text (content.getD ""),
                        ContentBlock.tool_use id1 n1 j1,
                        ContentBlock.tool_use id2 n2 j2]
            stop_reason := "tool_use"
            usage := usage.map mapOaiUsage } := by
  constructor
  · rfl
  · unfold mapOaiMessageToMessage
    have hmm : (((some [OaiOutToolCall.function id1 n1 (stringifyJson j1),
          OaiOutToolCall.function id2 n2 (stringifyJson j2)]
            : Option (List OaiOutToolCall)).getD []).filter
          OaiOutToolCall.isFunctionKind).mapM parseFunctionToolCall
        = Except.ok [ContentBlock.tool_use id1 n1 j1, ContentBlock.tool_use id2 n2 j2] := by
      show ([OaiOutToolCall.function id1 n1 (stringifyJson j1),
        OaiOutToolCall.function id2 n2 (stringifyJson j2)].mapM parseFunctionToolCall)
          = _
      rw [List.mapM_cons, List.mapM_cons, List.mapM_nil]
      simp [parseFunctionToolCall, parseJson_stringifyJson]
      rfl
    rw [hmm]
